import Mathlib

/-!
Shallow embedding of the crossword layout core of `src/utils.ts`
(`createEmptyGrid`, `calculateGrid`, `validatePlacement`, `generateLayout`
with its inner `canPlace` / `placeWordInMap` helpers), together with
theorems settling the specification claims about it.

Modelling conventions:
* JS strings holding word letters become `List Char`; clues stay `String`.
* Grid coordinates are `Int` (candidate origins can be negative during the
  search); the grid dimensions `rows`, `cols` are `Nat`.
* The cell matrix and the `Map<string, string>` occupancy map are modelled
  as total functions from coordinates, updated pointwise.
* `Array.prototype.sort` (a stable sort driven by a numeric comparator)
  is modelled by the stable `List.insertionSort` with the corresponding
  "may come before" relation.
* `calculateGrid` mutates its input records (it writes `w.number`); the
  embedding makes that visible by returning the records after the call in
  the `placedWords` field of its result.
-/

namespace CrosGen

/-- Word orientation: horizontal ("across") or vertical ("down"). -/
inductive Orientation where
  | across
  | down
deriving DecidableEq, Repr

/-- Row step of an orientation: 1 for "down", 0 for "across". -/
def Orientation.dr : Orientation → Int
  | .down => 1
  | .across => 0

/-- Column step of an orientation: 1 for "across", 0 for "down". -/
def Orientation.dc : Orientation → Int
  | .across => 1
  | .down => 0

/-- The perpendicular orientation (`pw.orientation === 'across' ? 'down' : 'across'`). -/
def Orientation.perp : Orientation → Orientation
  | .across => .down
  | .down => .across

/-- A word record: identity, letters, clue text. -/
structure WordData where
  id : Nat
  word : List Char
  clue : String
deriving DecidableEq, Repr

/-- A word committed to the grid: a word record extended with origin,
orientation and the (optional) computed clue number. -/
structure PlacedWord where
  id : Nat
  word : List Char
  clue : String
  row : Int
  col : Int
  orientation : Orientation
  number : Option Nat
deriving DecidableEq, Repr

/-- One cell of the board. -/
structure GridCellData where
  row : Int
  col : Int
  char : Option Char
  clueNumber : Option Nat
  wordIds : List Nat
  isValid : Bool
  isError : Bool
deriving DecidableEq, Repr

/-- The board, modelled as a total function from coordinates to cells. -/
abbrev Grid := Int → Int → GridCellData

/-- One clue entry `{number, clue, word, orientation}`. -/
structure ClueGroup where
  number : Nat
  clue : String
  word : List Char
  orientation : Orientation
deriving DecidableEq, Repr

/-- `createEmptyGrid`: every cell starts empty, valid, unnumbered. -/
def createEmptyGrid (rows cols : Nat) : Grid :=
  fun r c =>
    { row := r, col := c, char := none, clueNumber := none,
      wordIds := [], isValid := true, isError := false }

/-- Pointwise update of one board cell. -/
def updateGrid (g : Grid) (r c : Int) (f : GridCellData → GridCellData) : Grid :=
  fun r' c' => if r' = r ∧ c' = c then f (g r c) else g r' c'

/-- The per-cell effect of writing letter `ch` of word `wid` into a cell:
flag a collision when the cell already holds a different letter, then
overwrite the letter and record the word identity. -/
def writeChar (cell : GridCellData) (ch : Char) (wid : Nat) : GridCellData :=
  { cell with
    isError := cell.isError || (match cell.char with
      | some old => old != ch
      | none => false),
    char := some ch,
    wordIds := cell.wordIds ++ [wid] }

/-- The letter-placing loop of `calculateGrid` for one placed word: walk the
letters along the orientation's unit step, writing each in-bounds cell. -/
def placeWordLetters (rows cols : Nat) (pw : PlacedWord) :
    List Char → Nat → Grid → Grid
  | [], _, g => g
  | ch :: rest, i, g =>
    let r := pw.row + (i : Int) * pw.orientation.dr
    let c := pw.col + (i : Int) * pw.orientation.dc
    let g' := if 0 ≤ r ∧ r < (rows : Int) ∧ 0 ≤ c ∧ c < (cols : Int)
      then updateGrid g r c (fun cell => writeChar cell ch pw.id)
      else g
    placeWordLetters rows cols pw rest (i + 1) g'

/-- Phase 1 of `calculateGrid`: place the letters of every placed word. -/
def placeAllLetters (rows cols : Nat) (p : List PlacedWord) (g : Grid) : Grid :=
  p.foldl (fun g pw => placeWordLetters rows cols pw pw.word 0 g) g

/-- One row of the board's cells, in column order. -/
def rowCells (cols : Nat) (r : Nat) : List (Int × Int) :=
  (List.range cols).map (fun (c : Nat) => ((r : Int), (c : Int)))

/-- The row-major scan order of the board's cells. -/
def rowMajorCells (rows cols : Nat) : List (Int × Int) :=
  (List.range rows).flatMap (rowCells cols)

/-- `placedWords.filter(w => w.row === r && w.col === c)` predicate. -/
def startsAt (w : PlacedWord) (rc : Int × Int) : Bool :=
  w.row == rc.1 && w.col == rc.2

/-- State of the clue-numbering scan of `calculateGrid`. -/
structure NumberState where
  currentNumber : Nat
  clues : List ClueGroup
  placedWords : List PlacedWord
  grid : Grid

/-- One cell of the clue-numbering scan: if some placed words start here,
emit their clue entries with the current number, write that number into the
records and the cell, and advance the counter. -/
def numberCell (st : NumberState) (rc : Int × Int) : NumberState :=
  let wordsStartingHere := st.placedWords.filter (fun w => startsAt w rc)
  if 0 < wordsStartingHere.length then
    { currentNumber := st.currentNumber + 1,
      clues := st.clues ++ wordsStartingHere.map (fun w =>
        { number := st.currentNumber, clue := w.clue,
          word := w.word, orientation := w.orientation }),
      placedWords := st.placedWords.map (fun w =>
        if startsAt w rc then { w with number := some st.currentNumber } else w),
      grid := updateGrid st.grid rc.1 rc.2
        (fun cell => { cell with clueNumber := some st.currentNumber }) }
  else st

/-- The comparator `(a, b) => a.number - b.number` as a "may come before"
relation for the stable sort of the clue list. -/
def clueNumberLe (a b : ClueGroup) : Prop :=
  a.number ≤ b.number

instance : DecidableRel clueNumberLe :=
  fun a b => Nat.decLe a.number b.number

instance : IsTotal ClueGroup clueNumberLe :=
  ⟨fun a b => Nat.le_total a.number b.number⟩

instance : IsTrans ClueGroup clueNumberLe :=
  ⟨fun _ _ _ hab hbc => Nat.le_trans hab hbc⟩

/-- Result of `calculateGrid`: the derived board, the sorted clue list, and
the placed-word records as they stand after the call (the JS function writes
the computed clue number into each record's `number` field in place). -/
structure CalcResult where
  grid : Grid
  clues : List ClueGroup
  placedWords : List PlacedWord

/-- `calculateGrid`: derive the board and clue list from the placed words. -/
def calculateGrid (placedWords : List PlacedWord) (rows cols : Nat) : CalcResult :=
  let g := placeAllLetters rows cols placedWords (createEmptyGrid rows cols)
  let st := (rowMajorCells rows cols).foldl numberCell
    { currentNumber := 1, clues := [], placedWords := placedWords, grid := g }
  { grid := st.grid,
    clues := st.clues.insertionSort clueNumberLe,
    placedWords := st.placedWords }

/-- The per-letter collision scan of `validatePlacement`: an occupied cell
must hold exactly the word's letter at that position. -/
def validateLoop (grid : Grid) (row col dr dc : Int) : List Char → Nat → Bool
  | [], _ => true
  | ch :: rest, i =>
    let r := row + (i : Int) * dr
    let c := col + (i : Int) * dc
    match (grid r c).char with
    | some existing =>
      if existing = ch then validateLoop grid row col dr dc rest (i + 1) else false
    | none => validateLoop grid row col dr dc rest (i + 1)

/-- `validatePlacement`: the interactive-path validity check (bounds plus
letter-match only). -/
def validatePlacement (grid : Grid) (word : List Char) (row col : Int)
    (o : Orientation) (rows cols : Nat) : Bool :=
  let dr := o.dr
  let dc := o.dc
  if row < 0 ∨ col < 0 then false
  else if (rows : Int) ≤ row + ((word.length : Int) - 1) * dr then false
  else if (cols : Int) ≤ col + ((word.length : Int) - 1) * dc then false
  else validateLoop grid row col dr dc word 0

/-- The `Map<string, string>` occupancy map of `generateLayout`, modelled as
a total function from coordinates. -/
abbrev GridMap := Int × Int → Option Char

/-- The empty occupancy map. -/
def emptyGridMap : GridMap := fun _ => none

/-- `isOccupied(r, c)`. -/
def isOccupied (gm : GridMap) (r c : Int) : Bool :=
  (gm (r, c)).isSome

/-- `getChar(r, c)`. -/
def getChar (gm : GridMap) (r c : Int) : Option Char :=
  gm (r, c)

/-- `gridMap.set(`${r},${c}`, ch)`. -/
def setChar (gm : GridMap) (r c : Int) (ch : Char) : GridMap :=
  fun p => if p = (r, c) then some ch else gm p

/-- The diagonal corner rule of `canPlace`: an occupied diagonal neighbour
must be explained by one of the two shared orthogonal neighbours. -/
def diagOk (gm : GridMap) (r c : Int) : Bool :=
  ([(-1, -1), (-1, 1), (1, -1), (1, 1)] : List (Int × Int)).all
    (fun d =>
      !isOccupied gm (r + d.1) (c + d.2) ||
        (isOccupied gm (r + d.1) c || isOccupied gm r (c + d.2)))

/-- The per-letter loop of `canPlace`: letter match on occupied cells;
parallel-adjacency, two-step gap and diagonal corner rules on empty ones. -/
def canPlaceLoop (gm : GridMap) (row col dr dc : Int) : List Char → Nat → Bool
  | [], _ => true
  | ch :: rest, i =>
    let r := row + (i : Int) * dr
    let c := col + (i : Int) * dc
    match getChar gm r c with
    | some existing =>
      if existing = ch then canPlaceLoop gm row col dr dc rest (i + 1) else false
    | none =>
      let pDr := dc
      let pDc := dr
      if isOccupied gm (r + pDr) (c + pDc) || isOccupied gm (r - pDr) (c - pDc) then
        false
      else if isOccupied gm (r + 2 * pDr) (c + 2 * pDc) ||
          isOccupied gm (r - 2 * pDr) (c - 2 * pDc) then
        false
      else if !diagOk gm r c then
        false
      else
        canPlaceLoop gm row col dr dc rest (i + 1)

/-- `canPlace`: the auto-layout validity check (bounds, letter match,
adjacency and gap rules, diagonal rule, end caps). -/
def canPlace (gm : GridMap) (rows cols : Nat) (word : List Char) (row col : Int)
    (o : Orientation) : Bool :=
  let dr := o.dr
  let dc := o.dc
  if row < 0 ∨ col < 0 then false
  else if o = .across ∧ (cols : Int) < col + (word.length : Int) then false
  else if o = .down ∧ (rows : Int) < row + (word.length : Int) then false
  else if !canPlaceLoop gm row col dr dc word 0 then false
  else if isOccupied gm (row - dr) (col - dc) then false
  else if isOccupied gm (row + (word.length : Int) * dr)
      (col + (word.length : Int) * dc) then false
  else true

/-- The mutable state of `generateLayout`: the committed placements and the
occupancy map. -/
structure LayoutState where
  placed : List PlacedWord
  gridMap : GridMap

/-- The letter loop of `placeWordInMap`. -/
def placeLettersInMap (pw : PlacedWord) : List Char → Nat → GridMap → GridMap
  | [], _, gm => gm
  | ch :: rest, i, gm =>
    placeLettersInMap pw rest (i + 1)
      (setChar gm (pw.row + (i : Int) * pw.orientation.dr)
        (pw.col + (i : Int) * pw.orientation.dc) ch)

/-- `placeWordInMap`: record a placement's letters in the occupancy map and
append it to the committed list. -/
def placeWordInMap (st : LayoutState) (pw : PlacedWord) : LayoutState :=
  { placed := st.placed ++ [pw],
    gridMap := placeLettersInMap pw pw.word 0 st.gridMap }

/-- The spread `{ ...w, row, col, orientation }` building a placement from a
word record (`number` is absent). -/
def mkPlaced (w : WordData) (row col : Int) (o : Orientation) : PlacedWord :=
  { id := w.id, word := w.word, clue := w.clue,
    row := row, col := col, orientation := o, number := none }

/-- Innermost candidate scan of `generateLayout`: walk the placed word's
letters looking for a match with the candidate letter `ch` at position `j`;
on a match, compute the implied perpendicular origin and accept the first
origin the validator approves. -/
def tryK (gm : GridMap) (rows cols : Nat) (w : WordData) (j : Nat) (ch : Char)
    (pw : PlacedWord) : List Char → Nat → Option PlacedWord
  | [], _ => none
  | pch :: rest, k =>
    if pch = ch then
      let intersectR := pw.row + (k : Int) * pw.orientation.dr
      let intersectC := pw.col + (k : Int) * pw.orientation.dc
      let newO := pw.orientation.perp
      let startR := intersectR - (j : Int) * newO.dr
      let startC := intersectC - (j : Int) * newO.dc
      if canPlace gm rows cols w.word startR startC newO then
        some (mkPlaced w startR startC newO)
      else tryK gm rows cols w j ch pw rest (k + 1)
    else tryK gm rows cols w j ch pw rest (k + 1)

/-- Middle candidate scan of `generateLayout`: walk the candidate word's
letters (index `j`), scanning the placed word for each. -/
def tryJ (gm : GridMap) (rows cols : Nat) (w : WordData) (pw : PlacedWord) :
    List Char → Nat → Option PlacedWord
  | [], _ => none
  | ch :: rest, j =>
    match tryK gm rows cols w j ch pw pw.word 0 with
    | some bp => some bp
    | none => tryJ gm rows cols w pw rest (j + 1)

/-- Outer candidate scan of `generateLayout`: try to intersect the candidate
word with each already-placed word in order. -/
def tryPlaced (gm : GridMap) (rows cols : Nat) (w : WordData) :
    List PlacedWord → Option PlacedWord
  | [] => none
  | pw :: rest =>
    match tryJ gm rows cols w pw w.word 0 with
    | some bp => some bp
    | none => tryPlaced gm rows cols w rest

/-- One pass of the retry loop of `generateLayout` over the unplaced words:
commit each word whose scan finds an accepted candidate, keep the others,
and report whether the pass placed anything. -/
def runPass (rows cols : Nat) : LayoutState → List WordData →
    LayoutState × List WordData × Bool
  | st, [] => (st, [], false)
  | st, w :: rest =>
    match tryPlaced st.gridMap rows cols w st.placed with
    | some bp =>
      let out := runPass rows cols (placeWordInMap st bp) rest
      (out.1, out.2.1, true)
    | none =>
      let out := runPass rows cols st rest
      (out.1, w :: out.2.1, out.2.2)

/-- A pass never returns more unplaced words than it was given. -/
theorem runPass_length_le (rows cols : Nat) (st : LayoutState)
    (un : List WordData) :
    (runPass rows cols st un).2.1.length ≤ un.length := by
  induction un generalizing st with
  | nil => simp [runPass]
  | cons w rest ih =>
    simp only [runPass]
    cases tryPlaced st.gridMap rows cols w st.placed with
    | some bp =>
      simpa using Nat.le_succ_of_le (ih (placeWordInMap st bp))
    | none =>
      simpa using ih st

/-- A pass that placed something strictly shrinks the unplaced list. -/
theorem runPass_length_lt (rows cols : Nat) (st : LayoutState)
    (un : List WordData) (h : (runPass rows cols st un).2.2 = true) :
    (runPass rows cols st un).2.1.length < un.length := by
  induction un generalizing st with
  | nil => simp [runPass] at h
  | cons w rest ih =>
    simp only [runPass] at h ⊢
    cases htp : tryPlaced st.gridMap rows cols w st.placed with
    | some bp =>
      simpa using Nat.lt_succ_of_le (runPass_length_le rows cols (placeWordInMap st bp) rest)
    | none =>
      rw [htp] at h
      simp only at h
      simpa using ih st h

/-- The `while (changed && unplaced.length > 0)` retry loop of
`generateLayout`, with an explicit fuel argument making the recursion
structural; `generateLayout` supplies fuel `unplaced.length`, which
`layoutLoop_fuel_irrelevant` shows is enough to reach the loop's natural
exit (each productive pass strictly shrinks the unplaced list). -/
def layoutLoop (rows cols : Nat) : Nat → LayoutState → List WordData →
    LayoutState
  | 0, st, _ => st
  | fuel + 1, st, unplaced =>
    match unplaced with
    | [] => st
    | w :: rest =>
      let out := runPass rows cols st (w :: rest)
      if out.2.2 = true then layoutLoop rows cols fuel out.1 out.2.1
      else out.1

/-- Any fuel of at least the unplaced list's length yields the same result:
the fuelled loop models the unbounded `while` loop faithfully. -/
theorem layoutLoop_fuel_irrelevant (rows cols : Nat) :
    ∀ f₁ f₂ : Nat, ∀ st : LayoutState, ∀ un : List WordData,
      un.length ≤ f₁ → un.length ≤ f₂ →
      layoutLoop rows cols f₁ st un = layoutLoop rows cols f₂ st un := by
  intro f₁
  induction f₁ using Nat.strong_induction_on with
  | _ f₁ ih =>
    intro f₂ st un h₁ h₂
    match f₁, f₂, un with
    | g₁, g₂, [] =>
      cases g₁ <;> cases g₂ <;> rfl
    | 0, _, w :: rest => exact absurd h₁ (by simp)
    | _, 0, w :: rest => exact absurd h₂ (by simp)
    | g₁ + 1, g₂ + 1, w :: rest =>
      simp only [layoutLoop]
      cases hch : (runPass rows cols st (w :: rest)).2.2 with
      | true =>
        simp only [if_pos]
        have hlt := runPass_length_lt rows cols st (w :: rest) hch
        exact ih g₁ (by omega) g₂ _ _ (by omega) (by omega)
      | false => simp

/-- The comparator `(a, b) => b.word.length - a.word.length` as a "may come
before" relation: `a` may precede `b` when the comparator is `≤ 0`. -/
def wordLenGe (a b : WordData) : Prop :=
  b.word.length ≤ a.word.length

instance : DecidableRel wordLenGe :=
  fun a b => Nat.decLe b.word.length a.word.length

instance : IsTotal WordData wordLenGe :=
  ⟨fun a b => Nat.le_total b.word.length a.word.length⟩

instance : IsTrans WordData wordLenGe :=
  ⟨fun _ _ _ hab hbc => Nat.le_trans hbc hab⟩

/-- Placement of the first (longest) word: centered horizontally, falling
back to the top-left corner when the centered column is negative. -/
def anchorState (firstWord : WordData) (rows cols : Nat) : LayoutState :=
  let fr : Int := ((rows / 2 : Nat) : Int)
  let fc : Int := Int.fdiv ((cols : Int) - (firstWord.word.length : Int)) 2
  if 0 ≤ fc then
    placeWordInMap { placed := [], gridMap := emptyGridMap }
      (mkPlaced firstWord fr fc .across)
  else
    placeWordInMap { placed := [], gridMap := emptyGridMap }
      (mkPlaced firstWord 0 0 .across)

/-- `generateLayout` run to its final internal state (committed placements
plus occupancy map). -/
def layoutFinalState (words : List WordData) (rows cols : Nat) : LayoutState :=
  match words.insertionSort wordLenGe with
  | [] => { placed := [], gridMap := emptyGridMap }
  | firstWord :: rest =>
    layoutLoop rows cols rest.length (anchorState firstWord rows cols) rest

/-- `generateLayout`: sort by descending length, anchor the longest word,
then run the greedy crossing search; return the committed placements. -/
def generateLayout (words : List WordData) (rows cols : Nat) : List PlacedWord :=
  (layoutFinalState words rows cols).placed

/-- Default placement record, used with `List.getD`. -/
def dummyPlaced : PlacedWord :=
  { id := 0, word := [], clue := "", row := 0, col := 0,
    orientation := .across, number := none }

/-- Forget the computed clue number of a placement (the only field
`calculateGrid` writes into its input records). -/
def stripNumber (w : PlacedWord) : PlacedWord :=
  { w with number := none }

/-- `later` crosses `earlier`: perpendicular orientations and a common cell
on both words' paths carrying the same letter in both. -/
def crossesB (earlier later : PlacedWord) : Bool :=
  (later.orientation == earlier.orientation.perp) &&
    (List.range later.word.length).any (fun j =>
      (List.range earlier.word.length).any (fun k =>
        later.row + (j : Int) * later.orientation.dr ==
            earlier.row + (k : Int) * earlier.orientation.dr &&
          later.col + (j : Int) * later.orientation.dc ==
            earlier.col + (k : Int) * earlier.orientation.dc &&
          later.word.getD j ' ' == earlier.word.getD k ' '))

/-- Modelled from the spec: the squared Euclidean distance from a
placement's center to the grid's geometric center, in doubled coordinates
(both midpoints are scaled by 2 so they stay integral); the source has no
such computation. -/
def specCenterDistSq (rows cols : Nat) (pw : PlacedWord) : Int :=
  let r2 := 2 * pw.row + ((pw.word.length : Int) - 1) * pw.orientation.dr
  let c2 := 2 * pw.col + ((pw.word.length : Int) - 1) * pw.orientation.dc
  let cr := (rows : Int) - 1
  let cc := (cols : Int) - 1
  (r2 - cr) * (r2 - cr) + (c2 - cc) * (c2 - cc)

/-- Modelled from the spec: the per-letter loop of the relaxed-strictness
auto-layout validator, which the spec describes but the source lacks —
identical to `canPlaceLoop` except that the two-step perpendicular gap rule
is skipped. -/
def canPlaceRelaxedLoop (gm : GridMap) (row col dr dc : Int) :
    List Char → Nat → Bool
  | [], _ => true
  | ch :: rest, i =>
    let r := row + (i : Int) * dr
    let c := col + (i : Int) * dc
    match getChar gm r c with
    | some existing =>
      if existing = ch then canPlaceRelaxedLoop gm row col dr dc rest (i + 1)
      else false
    | none =>
      let pDr := dc
      let pDc := dr
      if isOccupied gm (r + pDr) (c + pDc) || isOccupied gm (r - pDr) (c - pDc) then
        false
      else if !diagOk gm r c then
        false
      else
        canPlaceRelaxedLoop gm row col dr dc rest (i + 1)

/-- Modelled from the spec: the relaxed-strictness variant of the
auto-layout validator (two-step gap rule skipped, everything else as in
`canPlace`); absent from the source. -/
def canPlaceRelaxed (gm : GridMap) (rows cols : Nat) (word : List Char)
    (row col : Int) (o : Orientation) : Bool :=
  let dr := o.dr
  let dc := o.dc
  if row < 0 ∨ col < 0 then false
  else if o = .across ∧ (cols : Int) < col + (word.length : Int) then false
  else if o = .down ∧ (rows : Int) < row + (word.length : Int) then false
  else if !canPlaceRelaxedLoop gm row col dr dc word 0 then false
  else if isOccupied gm (row - dr) (col - dc) then false
  else if isOccupied gm (row + (word.length : Int) * dr)
      (col + (word.length : Int) * dc) then false
  else true

/-- The candidate placements the innermost scan of `generateLayout` ranges
over, in scan order, before any validation. -/
def candK (w : WordData) (j : Nat) (ch : Char) (pw : PlacedWord) :
    List Char → Nat → List PlacedWord
  | [], _ => []
  | pch :: rest, k =>
    if pch = ch then
      let intersectR := pw.row + (k : Int) * pw.orientation.dr
      let intersectC := pw.col + (k : Int) * pw.orientation.dc
      let newO := pw.orientation.perp
      let startR := intersectR - (j : Int) * newO.dr
      let startC := intersectC - (j : Int) * newO.dc
      mkPlaced w startR startC newO :: candK w j ch pw rest (k + 1)
    else candK w j ch pw rest (k + 1)

/-- The candidate placements of the middle scan of `generateLayout` against
one placed word, in scan order. -/
def candJ (w : WordData) (pw : PlacedWord) : List Char → Nat → List PlacedWord
  | [], _ => []
  | ch :: rest, j => candK w j ch pw pw.word 0 ++ candJ w pw rest (j + 1)

/-- All candidate placements of one unplaced word against the committed
placements, in the exact scan order of `generateLayout`. -/
def candPlaced (w : WordData) : List PlacedWord → List PlacedWord
  | [] => []
  | pw :: rest => candJ w pw w.word 0 ++ candPlaced w rest

/-- The auto-layout validator's verdict on a candidate placement. -/
def acceptedBy (gm : GridMap) (rows cols : Nat) (cand : PlacedWord) : Bool :=
  canPlace gm rows cols cand.word cand.row cand.col cand.orientation

/-- The letters one placement writes into cell `(r, c)` during
`calculateGrid`, in index order (same guard as `placeWordLetters`). -/
def writesAtCell (rows cols : Nat) (pw : PlacedWord) (r c : Int) :
    List Char → Nat → List Char
  | [], _ => []
  | ch :: rest, i =>
    let r' := pw.row + (i : Int) * pw.orientation.dr
    let c' := pw.col + (i : Int) * pw.orientation.dc
    (if (0 ≤ r' ∧ r' < (rows : Int) ∧ 0 ≤ c' ∧ c' < (cols : Int)) ∧ r' = r ∧ c' = c
      then [ch] else []) ++ writesAtCell rows cols pw r c rest (i + 1)

/-- All letter writes into cell `(r, c)` across a placement list, paired
with the writing word's identity, in write order. -/
def allWritesAtCell (rows cols : Nat) (p : List PlacedWord) (r c : Int) :
    List (Char × Nat) :=
  p.flatMap (fun pw =>
    (writesAtCell rows cols pw r c pw.word 0).map (fun ch => (ch, pw.id)))

/-- The collision scan over a cell's successive letter writes: true iff some
write finds the cell holding a different letter. -/
def mismatchScan : Option Char → List Char → Bool
  | _, [] => false
  | cur, ch :: rest =>
    (match cur with
      | some old => old != ch
      | none => false) || mismatchScan (some ch) rest

/-- Whether `(r, c)` is the origin cell of at least one placement. -/
def isOriginCell (p : List PlacedWord) (rc : Int × Int) : Bool :=
  p.any (fun w => startsAt w rc)

/-- How many of the given cells are origin cells of the placement list. -/
def countOrigins (p : List PlacedWord) (cs : List (Int × Int)) : Nat :=
  (cs.filter (isOriginCell p)).length

/-- The cells strictly before `(rn, cn)` in row-major scan order. -/
def cellsBefore (cols rn cn : Nat) : List (Int × Int) :=
  (List.range rn).flatMap (rowCells cols) ++
    (List.range cn).map (fun (c' : Nat) => ((rn : Int), (c' : Int)))

/-! ### Helper lemmas -/

theorem numberCell_strip (st : NumberState) (rc : Int × Int) :
    ((numberCell st rc).placedWords).map stripNumber =
      st.placedWords.map stripNumber := by
  by_cases h : 0 < (st.placedWords.filter (fun w => startsAt w rc)).length
  · simp only [numberCell, if_pos h, List.map_map]
    apply List.map_congr_left
    intro w _
    by_cases hw : startsAt w rc = true <;> simp [stripNumber, hw]
  · simp only [numberCell, if_neg h]

theorem foldl_numberCell_strip :
    ∀ (cs : List (Int × Int)) (st : NumberState),
      ((cs.foldl numberCell st).placedWords).map stripNumber =
        st.placedWords.map stripNumber := by
  intro cs
  induction cs with
  | nil => intro st; rfl
  | cons rc rest ih =>
    intro st
    rw [List.foldl_cons, ih, numberCell_strip]

theorem runPass_placed_length (rows cols : Nat) :
    ∀ (un : List WordData) (st : LayoutState),
      (runPass rows cols st un).1.placed.length +
          (runPass rows cols st un).2.1.length ≤
        st.placed.length + un.length := by
  intro un
  induction un with
  | nil => intro st; simp [runPass]
  | cons w rest ih =>
    intro st
    simp only [runPass]
    cases tryPlaced st.gridMap rows cols w st.placed with
    | some bp =>
      have h := ih (placeWordInMap st bp)
      have hlen : (placeWordInMap st bp).placed.length = st.placed.length + 1 := by
        simp [placeWordInMap]
      rw [hlen] at h
      simp only [List.length_cons]
      omega
    | none =>
      have h := ih st
      simp only [List.length_cons]
      omega

theorem layoutLoop_placed_length (rows cols : Nat) :
    ∀ (fuel : Nat) (st : LayoutState) (un : List WordData),
      (layoutLoop rows cols fuel st un).placed.length ≤
        st.placed.length + un.length := by
  intro fuel
  induction fuel with
  | zero => intro st un; simp [layoutLoop]
  | succ f ih =>
    intro st un
    match un with
    | [] => simp [layoutLoop]
    | w :: rest =>
      simp only [layoutLoop]
      have hrp := runPass_placed_length rows cols (w :: rest) st
      cases hch : (runPass rows cols st (w :: rest)).2.2 with
      | true =>
        simp only [if_pos]
        exact Nat.le_trans (ih _ _) (by omega)
      | false =>
        simp only [Bool.false_eq_true, if_false]
        omega

theorem runPass_placed_prefix (rows cols : Nat) :
    ∀ (un : List WordData) (st : LayoutState),
      ∃ suffix, (runPass rows cols st un).1.placed = st.placed ++ suffix := by
  intro un
  induction un with
  | nil => intro st; exact ⟨[], by simp [runPass]⟩
  | cons w rest ih =>
    intro st
    simp only [runPass]
    cases tryPlaced st.gridMap rows cols w st.placed with
    | some bp =>
      obtain ⟨s, hs⟩ := ih (placeWordInMap st bp)
      refine ⟨[bp] ++ s, ?_⟩
      rw [hs]
      simp [placeWordInMap]
    | none => exact ih st

theorem layoutLoop_placed_prefix (rows cols : Nat) :
    ∀ (fuel : Nat) (st : LayoutState) (un : List WordData),
      ∃ suffix, (layoutLoop rows cols fuel st un).placed = st.placed ++ suffix := by
  intro fuel
  induction fuel with
  | zero => intro st un; exact ⟨[], by simp [layoutLoop]⟩
  | succ f ih =>
    intro st un
    match un with
    | [] => exact ⟨[], by simp [layoutLoop]⟩
    | w :: rest =>
      simp only [layoutLoop]
      cases hch : (runPass rows cols st (w :: rest)).2.2 with
      | true =>
        simp only [if_pos]
        obtain ⟨s₁, hs₁⟩ := runPass_placed_prefix rows cols (w :: rest) st
        obtain ⟨s₂, hs₂⟩ := ih (runPass rows cols st (w :: rest)).1
          (runPass rows cols st (w :: rest)).2.1
        exact ⟨s₁ ++ s₂, by rw [hs₂, hs₁, List.append_assoc]⟩
      | false =>
        simp only [Bool.false_eq_true, if_false]
        exact runPass_placed_prefix rows cols (w :: rest) st

theorem anchorState_placed (firstWord : WordData) (rows cols : Nat) :
    (anchorState firstWord rows cols).placed =
      [if 0 ≤ Int.fdiv ((cols : Int) - (firstWord.word.length : Int)) 2 then
        mkPlaced firstWord ((rows / 2 : Nat) : Int)
          (Int.fdiv ((cols : Int) - (firstWord.word.length : Int)) 2) .across
      else mkPlaced firstWord 0 0 .across] := by
  by_cases h : 0 ≤ Int.fdiv ((cols : Int) - (firstWord.word.length : Int)) 2 <;>
    simp [anchorState, placeWordInMap, h]

/-! ### Claim theorems -/

/-- A demonstration word record with letters "CAT". -/
def catWordDemo : WordData :=
  { id := 0, word := ['C', 'A', 'T'], clue := "feline" }

/-- A demonstration placement: the one-letter word "A" at the top-left
corner, oriented across. -/
def demoPlacedA : PlacedWord :=
  mkPlaced { id := 0, word := ['A'], clue := "demo" } 0 0 .across

/-- C3: `validatePlacement` rejects every placement with an out-of-bounds
cell, in every orientation; `canPlace` rejects negative origins and extent
overflow along the word's own orientation axis (its only bounds checks). -/
theorem validators_bounds :
    (∀ (grid : Grid) (word : List Char) (row col : Int) (o : Orientation)
        (rows cols : Nat) (i : Nat), i < word.length →
      ¬(0 ≤ row + (i : Int) * o.dr ∧ row + (i : Int) * o.dr < (rows : Int) ∧
        0 ≤ col + (i : Int) * o.dc ∧ col + (i : Int) * o.dc < (cols : Int)) →
      validatePlacement grid word row col o rows cols = false) ∧
    (∀ (gm : GridMap) (rows cols : Nat) (word : List Char) (row col : Int)
        (o : Orientation),
      canPlace gm rows cols word row col o = true →
      0 ≤ row ∧ 0 ≤ col ∧
        (o = .across → col + (word.length : Int) ≤ (cols : Int)) ∧
        (o = .down → row + (word.length : Int) ≤ (rows : Int))) := by
  constructor
  · intro grid word row col o rows cols i hi hout
    simp only [validatePlacement]
    split_ifs with h1 h2 h3
    · rfl
    · rfl
    · rfl
    · exfalso
      apply hout
      push_neg at h1 h2 h3
      obtain ⟨hr0, hc0⟩ := h1
      cases o <;>
        simp only [Orientation.dr, Orientation.dc, mul_zero, mul_one,
          add_zero] at h2 h3 ⊢ <;>
        omega
  · intro gm rows cols word row col o h
    simp only [canPlace] at h
    split_ifs at h with h1 h2 h3
    push_neg at h1
    refine ⟨h1.1, h1.2, ?_, ?_⟩
    · intro ho
      rcases not_and.mp h2 ho with h2'
      omega
    · intro ho
      rcases not_and.mp h3 ho with h3'
      omega

/-- C3 witness: both parts applied at concrete inputs. -/
theorem validators_bounds_witness :
    validatePlacement (createEmptyGrid 5 5) ['A'] 9 0 .across 5 5 = false ∧
      (0 ≤ (1 : Int) ∧ 0 ≤ (1 : Int) ∧
        (Orientation.across = .across → (1 : Int) + ((1 : Nat) : Int) ≤ (5 : Int)) ∧
        (Orientation.across = .down → (1 : Int) + ((1 : Nat) : Int) ≤ (5 : Int))) :=
  ⟨validators_bounds.1 (createEmptyGrid 5 5) ['A'] 9 0 .across 5 5 0 (by decide)
      (by decide),
    validators_bounds.2 emptyGridMap 5 5 ['A'] 1 1 .across (by decide)⟩

/-- C3 counterexample: the auto-layout validator accepts a one-letter word
at row 99 of a 5×5 grid (the perpendicular axis of an "across" word is never
checked against its upper bound), so not every out-of-bounds placement is
rejected. -/
theorem canPlace_accepts_out_of_bounds :
    canPlace emptyGridMap 5 5 ['A'] 99 0 .across = true ∧
      ¬(99 + ((0 : Nat) : Int) * Orientation.across.dr < ((5 : Nat) : Int)) := by
  constructor
  · decide
  · decide

/-- C4 (amended): `calculateGrid` changes nothing about its input records
except the `number` field (and `generateLayout`, a pure function of its
word-record inputs, changes nothing at all). -/
theorem calculateGrid_number_only_field (p : List PlacedWord) (rows cols : Nat) :
    ((calculateGrid p rows cols).placedWords).map stripNumber =
      p.map stripNumber := by
  simp only [calculateGrid]
  exact foldl_numberCell_strip _ _

/-- C4 counterexample: `calculateGrid` hands back mutated placement records
— after deriving a 1×1 board from a placement with `number = none`, the
record carries `number = some 1`. -/
theorem calculateGrid_mutates_inputs :
    (calculateGrid [demoPlacedA] 1 1).placedWords ≠ [demoPlacedA] := by
  decide

/-- C8: the layout never fails and never returns more placements than words;
on the empty word list it returns the empty list. -/
theorem generateLayout_length_le (words : List WordData) (rows cols : Nat) :
    (generateLayout words rows cols).length ≤ words.length ∧
      generateLayout [] rows cols = [] := by
  constructor
  · have hperm := List.perm_insertionSort wordLenGe words
    simp only [generateLayout, layoutFinalState]
    cases h : words.insertionSort wordLenGe with
    | nil => simp
    | cons fw rest =>
      have hlen : words.length = rest.length + 1 := by
        have := hperm.length_eq
        rw [h] at this
        simpa using this.symm
      have hb := layoutLoop_placed_length rows cols rest.length
        (anchorState fw rows cols) rest
      have ha : (anchorState fw rows cols).placed.length = 1 := by
        rw [anchorState_placed]
        rfl
      show (layoutLoop rows cols rest.length (anchorState fw rows cols)
        rest).placed.length ≤ words.length
      omega
  · rfl

/-- C9: `calculateGrid` is deterministic — equal placement lists and equal
dimensions give equal boards, equal clue lists and equal record updates. -/
theorem calculateGrid_deterministic (p₁ p₂ : List PlacedWord) (rows cols : Nat)
    (h : p₁ = p₂) :
    calculateGrid p₁ rows cols = calculateGrid p₂ rows cols := by
  rw [h]

/-- C9 witness: determinism applied at a concrete input. -/
theorem calculateGrid_deterministic_witness :
    calculateGrid [demoPlacedA] 1 1 = calculateGrid [demoPlacedA] 1 1 :=
  calculateGrid_deterministic [demoPlacedA] [demoPlacedA] 1 1 rfl

theorem insertionSort_head_max (words : List WordData) (fw : WordData)
    (rest : List WordData) (h : words.insertionSort wordLenGe = fw :: rest) :
    fw ∈ words ∧ ∀ w' ∈ words, w'.word.length ≤ fw.word.length := by
  have hperm := List.perm_insertionSort wordLenGe words
  rw [h] at hperm
  constructor
  · exact hperm.mem_iff.mp (List.mem_cons_self fw rest)
  · intro w' hw'
    have hw'' : w' ∈ fw :: rest := hperm.mem_iff.mpr hw'
    rcases List.mem_cons.mp hw'' with rfl | hmem
    · exact Nat.le_refl _
    · have hs := List.sorted_insertionSort wordLenGe words
      rw [h] at hs
      exact List.rel_of_sorted_cons hs w' hmem

/-- C7: for a non-empty word list the layout first commits a word of maximal
length, oriented across, at row `rows / 2` and column
`floor((cols - length) / 2)`, falling back to the origin when that centered
column is negative; concretely, "CAT" on a 15×15 grid lands at row 7,
column 6 as the only placement. -/
theorem generateLayout_anchor :
    (∀ (words : List WordData) (rows cols : Nat), words ≠ [] →
      ∃ w rest, w ∈ words ∧ (∀ w' ∈ words, w'.word.length ≤ w.word.length) ∧
        generateLayout words rows cols =
          (if 0 ≤ Int.fdiv ((cols : Int) - (w.word.length : Int)) 2 then
            mkPlaced w ((rows / 2 : Nat) : Int)
              (Int.fdiv ((cols : Int) - (w.word.length : Int)) 2) .across
          else mkPlaced w 0 0 .across) :: rest) ∧
    generateLayout [catWordDemo] 15 15 = [mkPlaced catWordDemo 7 6 .across] := by
  constructor
  · intro words rows cols hne
    cases h : words.insertionSort wordLenGe with
    | nil =>
      exfalso
      apply hne
      have hlen := (List.perm_insertionSort wordLenGe words).length_eq
      rw [h] at hlen
      exact List.length_eq_zero.mp (by simpa using hlen.symm)
    | cons fw rest' =>
      obtain ⟨hmem, hmax⟩ := insertionSort_head_max words fw rest' h
      obtain ⟨suffix, hsuf⟩ := layoutLoop_placed_prefix rows cols rest'.length
        (anchorState fw rows cols) rest'
      refine ⟨fw, suffix, hmem, hmax, ?_⟩
      simp only [generateLayout, layoutFinalState, h]
      show (layoutLoop rows cols rest'.length (anchorState fw rows cols)
        rest').placed = _
      rw [hsuf, anchorState_placed]
      simp
  · decide

/-- C7 witness: the anchor property applied to the singleton list "CAT" on a
15×15 grid. -/
theorem generateLayout_anchor_witness :
    ∃ w rest, w ∈ [catWordDemo] ∧
      (∀ w' ∈ [catWordDemo], w'.word.length ≤ w.word.length) ∧
      generateLayout [catWordDemo] 15 15 =
        (if 0 ≤ Int.fdiv (((15 : Nat) : Int) - (w.word.length : Int)) 2 then
          mkPlaced w (((15 : Nat) / 2 : Nat) : Int)
            (Int.fdiv (((15 : Nat) : Int) - (w.word.length : Int)) 2) .across
        else mkPlaced w 0 0 .across) :: rest :=
  generateLayout_anchor.1 [catWordDemo] 15 15 (by decide)

theorem getD_append_lt {α : Type} (l l' : List α) (n : Nat) (d : α)
    (h : n < l.length) : (l ++ l').getD n d = l.getD n d := by
  simp [List.getD, List.getElem?_append_left h]

theorem getD_append_len {α : Type} (l : List α) (b d : α) :
    (l ++ [b]).getD l.length d = b := by
  simp [List.getD, List.getElem?_append_right (Nat.le_refl _)]

theorem tryK_spec (gm : GridMap) (rows cols : Nat) (w : WordData) (j : Nat)
    (ch : Char) (pw : PlacedWord) (hj : j < w.word.length)
    (hch : w.word.getD j ' ' = ch) :
    ∀ (ls : List Char) (k : Nat) (bp : PlacedWord),
      tryK gm rows cols w j ch pw ls k = some bp →
      (∀ t, t < ls.length → ls.getD t ' ' = pw.word.getD (k + t) ' ') →
      ls.length + k = pw.word.length →
      crossesB pw bp = true := by
  intro ls
  induction ls with
  | nil =>
    intro k bp h _ _
    simp [tryK] at h
  | cons pch rest ih =>
    intro k bp h hsub hlen
    have hk : k < pw.word.length := by
      simp only [List.length_cons] at hlen
      omega
    have hpk : pw.word.getD k ' ' = pch := by
      have h0 := hsub 0 (by simp)
      simpa using h0.symm
    have hsub' : ∀ t, t < rest.length → rest.getD t ' ' = pw.word.getD (k + 1 + t) ' ' := by
      intro t ht
      have := hsub (t + 1) (by simpa using Nat.succ_lt_succ ht)
      simpa [Nat.add_comm, Nat.add_left_comm] using this
    have hlen' : rest.length + (k + 1) = pw.word.length := by
      simp only [List.length_cons] at hlen
      omega
    simp only [tryK] at h
    split at h
    · split at h
      · rename_i hpc hcp
        cases h
        show crossesB pw (mkPlaced w _ _ _) = true
        simp only [crossesB, mkPlaced, Bool.and_eq_true, beq_iff_eq,
          List.any_eq_true, List.mem_range]
        refine ⟨trivial, j, hj, k, hk, ?_⟩
        refine ⟨⟨by ring, by ring⟩, ?_⟩
        rw [hch, hpk, hpc]
      · exact ih (k + 1) bp h hsub' hlen'
    · exact ih (k + 1) bp h hsub' hlen'

theorem tryJ_spec (gm : GridMap) (rows cols : Nat) (w : WordData)
    (pw : PlacedWord) :
    ∀ (ls : List Char) (j : Nat) (bp : PlacedWord),
      tryJ gm rows cols w pw ls j = some bp →
      (∀ t, t < ls.length → ls.getD t ' ' = w.word.getD (j + t) ' ') →
      ls.length + j = w.word.length →
      crossesB pw bp = true := by
  intro ls
  induction ls with
  | nil =>
    intro j bp h _ _
    simp [tryJ] at h
  | cons ch rest ih =>
    intro j bp h hsub hlen
    have hj : j < w.word.length := by
      simp only [List.length_cons] at hlen
      omega
    have hch : w.word.getD j ' ' = ch := by
      have h0 := hsub 0 (by simp)
      simpa using h0.symm
    simp only [tryJ] at h
    cases htk : tryK gm rows cols w j ch pw pw.word 0 with
    | some bp' =>
      rw [htk] at h
      simp only [Option.some.injEq] at h
      subst h
      exact tryK_spec gm rows cols w j ch pw hj hch pw.word 0 bp' htk
        (fun t ht => by simp) (by simp)
    | none =>
      rw [htk] at h
      exact ih (j + 1) bp h
        (fun t ht => by
          have := hsub (t + 1) (by simpa using Nat.succ_lt_succ ht)
          simpa [Nat.add_comm, Nat.add_left_comm] using this)
        (by simp only [List.length_cons] at hlen; omega)

theorem tryPlaced_spec (gm : GridMap) (rows cols : Nat) (w : WordData) :
    ∀ (placed : List PlacedWord) (bp : PlacedWord),
      tryPlaced gm rows cols w placed = some bp →
      ∃ pw ∈ placed, crossesB pw bp = true := by
  intro placed
  induction placed with
  | nil =>
    intro bp h
    simp [tryPlaced] at h
  | cons pw rest ih =>
    intro bp h
    simp only [tryPlaced] at h
    cases htj : tryJ gm rows cols w pw w.word 0 with
    | some bp' =>
      rw [htj] at h
      simp only [Option.some.injEq] at h
      subst h
      exact ⟨pw, List.mem_cons_self pw rest,
        tryJ_spec gm rows cols w pw w.word 0 bp' htj (fun t ht => by simp)
          (by simp)⟩
    | none =>
      rw [htj] at h
      obtain ⟨pw', hmem, hcross⟩ := ih bp h
      exact ⟨pw', List.mem_cons_of_mem pw hmem, hcross⟩

/-- The crossing invariant: every entry after the first crosses an earlier
entry of the list. -/
def crossChain (l : List PlacedWord) : Prop :=
  ∀ jdx, 0 < jdx → jdx < l.length →
    ∃ idx, idx < jdx ∧
      crossesB (l.getD idx dummyPlaced) (l.getD jdx dummyPlaced) = true

theorem crossChain_append (l : List PlacedWord) (bp : PlacedWord)
    (h : crossChain l) (hex : ∃ pw ∈ l, crossesB pw bp = true) :
    crossChain (l ++ [bp]) := by
  intro jdx hpos hlt
  simp only [List.length_append, List.length_cons, List.length_nil] at hlt
  by_cases hj : jdx < l.length
  · obtain ⟨idx, hidx, hcross⟩ := h jdx hpos hj
    refine ⟨idx, hidx, ?_⟩
    rw [getD_append_lt l [bp] idx dummyPlaced (Nat.lt_trans hidx hj),
      getD_append_lt l [bp] jdx dummyPlaced hj]
    exact hcross
  · have hj' : jdx = l.length := by omega
    obtain ⟨pw, hpw, hcross⟩ := hex
    obtain ⟨n, hn, hget⟩ := List.mem_iff_getElem.mp hpw
    refine ⟨n, by omega, ?_⟩
    have e1 : (l ++ [bp]).getD n dummyPlaced = pw := by
      rw [getD_append_lt l [bp] n dummyPlaced hn, List.getD_eq_getElem l _ hn]
      exact hget
    have e2 : (l ++ [bp]).getD jdx dummyPlaced = bp := by
      rw [hj']
      exact getD_append_len l bp dummyPlaced
    rw [e1, e2]
    exact hcross

theorem runPass_crossChain (rows cols : Nat) :
    ∀ (un : List WordData) (st : LayoutState), crossChain st.placed →
      crossChain (runPass rows cols st un).1.placed := by
  intro un
  induction un with
  | nil =>
    intro st h
    simpa [runPass] using h
  | cons w rest ih =>
    intro st h
    simp only [runPass]
    cases htp : tryPlaced st.gridMap rows cols w st.placed with
    | some bp =>
      apply ih
      show crossChain (st.placed ++ [bp])
      exact crossChain_append st.placed bp h (tryPlaced_spec _ rows cols w _ bp htp)
    | none => exact ih st h

theorem layoutLoop_crossChain (rows cols : Nat) :
    ∀ (fuel : Nat) (st : LayoutState) (un : List WordData),
      crossChain st.placed →
      crossChain (layoutLoop rows cols fuel st un).placed := by
  intro fuel
  induction fuel with
  | zero =>
    intro st un h
    simpa [layoutLoop] using h
  | succ f ih =>
    intro st un h
    match un with
    | [] => simpa [layoutLoop] using h
    | w :: rest =>
      simp only [layoutLoop]
      cases hch : (runPass rows cols st (w :: rest)).2.2 with
      | true =>
        simp only [if_pos]
        exact ih _ _ (runPass_crossChain rows cols (w :: rest) st h)
      | false =>
        simp only [Bool.false_eq_true, if_false]
        exact runPass_crossChain rows cols (w :: rest) st h

/-- Demonstration words "AB" and "BA". -/
def demoWordAB : WordData := { id := 0, word := ['A', 'B'], clue := "" }

/-- Demonstration word "BA". -/
def demoWordBA : WordData := { id := 1, word := ['B', 'A'], clue := "" }

/-- C10: every placement the layout returns after the first one crosses an
earlier-committed placement — perpendicular orientation and a common cell
carrying the same letter in both words. -/
theorem generateLayout_crossings (words : List WordData) (rows cols : Nat)
    (jdx : Nat) (hpos : 0 < jdx)
    (hlt : jdx < (generateLayout words rows cols).length) :
    ∃ idx, idx < jdx ∧
      crossesB ((generateLayout words rows cols).getD idx dummyPlaced)
        ((generateLayout words rows cols).getD jdx dummyPlaced) = true := by
  have hchain : crossChain (generateLayout words rows cols) := by
    unfold generateLayout layoutFinalState
    cases h : words.insertionSort wordLenGe with
    | nil =>
      intro j hp hl
      simp at hl
    | cons fw rest =>
      show crossChain (layoutLoop rows cols rest.length
        (anchorState fw rows cols) rest).placed
      apply layoutLoop_crossChain
      intro j hp hl
      rw [anchorState_placed] at hl
      simp at hl
      omega
  exact hchain jdx hpos hlt

/-- C10 witness: with words "AB" and "BA" on a 15×15 grid, the second
placement crosses the first. -/
theorem generateLayout_crossings_witness :
    ∃ idx, idx < 1 ∧
      crossesB ((generateLayout [demoWordAB, demoWordBA] 15 15).getD idx dummyPlaced)
        ((generateLayout [demoWordAB, demoWordBA] 15 15).getD 1 dummyPlaced) = true :=
  generateLayout_crossings [demoWordAB, demoWordBA] 15 15 1 (by decide) (by decide)

theorem tryK_eq_find (gm : GridMap) (rows cols : Nat) (w : WordData) (j : Nat)
    (ch : Char) (pw : PlacedWord) :
    ∀ (ls : List Char) (k : Nat),
      tryK gm rows cols w j ch pw ls k =
        (candK w j ch pw ls k).find? (acceptedBy gm rows cols) := by
  intro ls
  induction ls with
  | nil => intro k; simp [tryK, candK]
  | cons pch rest ih =>
    intro k
    simp only [tryK, candK]
    by_cases hpc : pch = ch
    · rw [if_pos hpc, if_pos hpc, List.find?_cons]
      cases hacc : acceptedBy gm rows cols
          (mkPlaced w
            (pw.row + (k : Int) * pw.orientation.dr -
              (j : Int) * pw.orientation.perp.dr)
            (pw.col + (k : Int) * pw.orientation.dc -
              (j : Int) * pw.orientation.perp.dc)
            pw.orientation.perp) with
      | true =>
        rw [if_pos]
        exact hacc
      | false =>
        rw [if_neg]
        · exact ih (k + 1)
        · simp only [acceptedBy, mkPlaced] at hacc
          simp [hacc]
    · rw [if_neg hpc, if_neg hpc]
      exact ih (k + 1)

theorem tryJ_eq_find (gm : GridMap) (rows cols : Nat) (w : WordData)
    (pw : PlacedWord) :
    ∀ (ls : List Char) (j : Nat),
      tryJ gm rows cols w pw ls j =
        (candJ w pw ls j).find? (acceptedBy gm rows cols) := by
  intro ls
  induction ls with
  | nil => intro j; simp [tryJ, candJ]
  | cons ch rest ih =>
    intro j
    simp only [tryJ, candJ, List.find?_append, tryK_eq_find, ih]
    cases (candK w j ch pw pw.word 0).find? (acceptedBy gm rows cols) <;> simp

theorem tryPlaced_eq_find (gm : GridMap) (rows cols : Nat) (w : WordData) :
    ∀ placed : List PlacedWord,
      tryPlaced gm rows cols w placed =
        (candPlaced w placed).find? (acceptedBy gm rows cols) := by
  intro placed
  induction placed with
  | nil => simp [tryPlaced, candPlaced]
  | cons pw rest ih =>
    simp only [tryPlaced, candPlaced, List.find?_append, tryJ_eq_find, ih]
    cases (candJ w pw w.word 0).find? (acceptedBy gm rows cols) <;> simp

/-- Demonstration word "ABAA". -/
def demoWordABAA : WordData := { id := 0, word := ['A', 'B', 'A', 'A'], clue := "" }

/-- Demonstration one-letter word "A". -/
def demoWordA : WordData := { id := 1, word := ['A'], clue := "" }

/-- C1 (amended): for each unplaced word the layout commits the first
candidate the validator accepts in scan order — over placed words, then the
candidate's letter positions, then the placed word's letter positions — and
performs no distance-to-center comparison among accepted candidates. -/
theorem runPass_commits_first_accepted (rows cols : Nat) (st : LayoutState)
    (w : WordData) (rest : List WordData) :
    runPass rows cols st (w :: rest) =
      match (candPlaced w st.placed).find? (acceptedBy st.gridMap rows cols) with
      | some bp =>
        ((runPass rows cols (placeWordInMap st bp) rest).1,
          (runPass rows cols (placeWordInMap st bp) rest).2.1, true)
      | none =>
        ((runPass rows cols st rest).1,
          w :: (runPass rows cols st rest).2.1,
          (runPass rows cols st rest).2.2) := by
  simp only [runPass, tryPlaced_eq_find]

/-- C1 counterexample: with words "ABAA" and "A" on a 15×15 grid, the
accepted candidate at (7,7) lies strictly closer to the grid center than the
committed one at (7,5) — the layout commits the first accepted candidate in
scan order, not the center-closest accepted candidate. -/
theorem generateLayout_commits_far_candidate :
    (generateLayout [demoWordABAA, demoWordA] 15 15).getD 1 dummyPlaced =
        mkPlaced demoWordA 7 5 .down ∧
      mkPlaced demoWordA 7 7 .down ∈
        candPlaced demoWordA (anchorState demoWordABAA 15 15).placed ∧
      acceptedBy (anchorState demoWordABAA 15 15).gridMap 15 15
        (mkPlaced demoWordA 7 7 .down) = true ∧
      specCenterDistSq 15 15 (mkPlaced demoWordA 7 7 .down) <
        specCenterDistSq 15 15
          ((generateLayout [demoWordABAA, demoWordA] 15 15).getD 1 dummyPlaced) := by
  refine ⟨by decide, by decide, by decide, by decide⟩

theorem canPlaceLoop_gap (gm : GridMap) (row col dr dc : Int) :
    ∀ (ls : List Char) (i : Nat),
      canPlaceLoop gm row col dr dc ls i = true →
      ∀ t, t < ls.length →
        getChar gm (row + ((i + t : Nat) : Int) * dr)
          (col + ((i + t : Nat) : Int) * dc) = none →
        isOccupied gm (row + ((i + t : Nat) : Int) * dr + 2 * dc)
            (col + ((i + t : Nat) : Int) * dc + 2 * dr) = false ∧
          isOccupied gm (row + ((i + t : Nat) : Int) * dr - 2 * dc)
            (col + ((i + t : Nat) : Int) * dc - 2 * dr) = false := by
  intro ls
  induction ls with
  | nil =>
    intro i _ t ht
    exact absurd ht (by simp)
  | cons ch rest ih =>
    intro i h t ht hempty
    have hstep : ∀ t', t' < rest.length →
        canPlaceLoop gm row col dr dc rest (i + 1) = true →
        getChar gm (row + ((i + (t' + 1) : Nat) : Int) * dr)
          (col + ((i + (t' + 1) : Nat) : Int) * dc) = none →
        isOccupied gm (row + ((i + (t' + 1) : Nat) : Int) * dr + 2 * dc)
            (col + ((i + (t' + 1) : Nat) : Int) * dc + 2 * dr) = false ∧
          isOccupied gm (row + ((i + (t' + 1) : Nat) : Int) * dr - 2 * dc)
            (col + ((i + (t' + 1) : Nat) : Int) * dc - 2 * dr) = false := by
      intro t' ht' htail he
      have harith : i + 1 + t' = i + (t' + 1) := by omega
      have hres := ih (i + 1) htail t' ht' (by rw [harith]; exact he)
      rw [harith] at hres
      exact hres
    rcases hg : getChar gm (row + (i : Int) * dr) (col + (i : Int) * dc) with _ | ex
    · simp only [canPlaceLoop, hg] at h
      split_ifs at h with h1 h2 h3
      cases t with
      | zero =>
        simp only [Bool.or_eq_true, not_or, Bool.not_eq_true] at h2
        constructor
        · simpa using h2.1
        · simpa using h2.2
      | succ t' =>
        exact hstep t' (by simp only [List.length_cons] at ht; omega) h hempty
    · simp only [canPlaceLoop, hg] at h
      split_ifs at h with hex
      · cases t with
        | zero =>
          exfalso
          have hg0 : getChar gm (row + ((i + 0 : Nat) : Int) * dr)
              (col + ((i + 0 : Nat) : Int) * dc) = some ex := by
            simpa using hg
          rw [hempty] at hg0
          exact Option.noConfusion hg0
        | succ t' =>
          exact hstep t' (by simp only [List.length_cons] at ht; omega) h hempty

/-- C2 (amended): the auto-layout validator takes no strictness flag — its
two-step perpendicular gap rule is always enforced: whenever it accepts a
placement, every newly-written (empty) cell has unoccupied cells two steps
away on both perpendicular sides; the layout runs its sweeps with this one
validator only and never retries a relaxed variant. -/
theorem canPlace_gap_always (gm : GridMap) (rows cols : Nat)
    (word : List Char) (row col : Int) (o : Orientation)
    (h : canPlace gm rows cols word row col o = true)
    (t : Nat) (ht : t < word.length)
    (hempty : getChar gm (row + (t : Int) * o.dr) (col + (t : Int) * o.dc) = none) :
    isOccupied gm (row + (t : Int) * o.dr + 2 * o.dc)
        (col + (t : Int) * o.dc + 2 * o.dr) = false ∧
      isOccupied gm (row + (t : Int) * o.dr - 2 * o.dc)
        (col + (t : Int) * o.dc - 2 * o.dr) = false := by
  have hloop : canPlaceLoop gm row col o.dr o.dc word 0 = true := by
    simp only [canPlace] at h
    split_ifs at h with h1 h2 h3 h4 h5 h6
    simpa using h4
  have hres := canPlaceLoop_gap gm row col o.dr o.dc word 0 hloop t ht
    (by simpa using hempty)
  simpa using hres

/-- C2 witness: the gap guarantee applied to an accepted placement of "AB"
crossing the letter at the origin of an otherwise empty board. -/
theorem canPlace_gap_always_witness :
    isOccupied (setChar emptyGridMap 0 0 'A')
        (0 + ((1 : Nat) : Int) * Orientation.down.dr + 2 * Orientation.down.dc)
        (0 + ((1 : Nat) : Int) * Orientation.down.dc + 2 * Orientation.down.dr) =
      false ∧
    isOccupied (setChar emptyGridMap 0 0 'A')
        (0 + ((1 : Nat) : Int) * Orientation.down.dr - 2 * Orientation.down.dc)
        (0 + ((1 : Nat) : Int) * Orientation.down.dc - 2 * Orientation.down.dr) =
      false :=
  canPlace_gap_always (setChar emptyGridMap 0 0 'A') 15 15 ['A', 'B'] 0 0 .down
    (by decide) 1 (by decide) (by decide)

/-- Demonstration word "AAAAA". -/
def demoWordAAAAA : WordData :=
  { id := 0, word := ['A', 'A', 'A', 'A', 'A'], clue := "" }

/-- Demonstration word "BABB". -/
def demoWordBABB : WordData := { id := 1, word := ['B', 'A', 'B', 'B'], clue := "" }

/-- Demonstration word "BC". -/
def demoWordBC : WordData := { id := 2, word := ['B', 'C'], clue := "" }

/-- C2 counterexample: with words "AAAAA", "BABB", "BC" on a 15×15 grid the
layout drops "BC" (only ids 0 and 1 are placed) even though a placement of
"BC" at (9,5) across is rejected only by the always-on gap rule and would be
accepted by the spec's relaxed validator — so no strict-then-relaxed retry
exists. -/
theorem generateLayout_no_relaxed_retry :
    ((generateLayout [demoWordAAAAA, demoWordBABB, demoWordBC] 15 15).map
        (fun pw => pw.id)) = [0, 1] ∧
      canPlace
        (layoutFinalState [demoWordAAAAA, demoWordBABB, demoWordBC] 15 15).gridMap
        15 15 demoWordBC.word 9 5 .across = false ∧
      canPlaceRelaxed
        (layoutFinalState [demoWordAAAAA, demoWordBABB, demoWordBC] 15 15).gridMap
        15 15 demoWordBC.word 9 5 .across = true := by
  refine ⟨by decide, by decide, by decide⟩

theorem placeWordLetters_cell (rows cols : Nat) (pw : PlacedWord) (r c : Int) :
    ∀ (ls : List Char) (i : Nat) (g : Grid),
      placeWordLetters rows cols pw ls i g r c =
        (writesAtCell rows cols pw r c ls i).foldl
          (fun cell ch => writeChar cell ch pw.id) (g r c) := by
  intro ls
  induction ls with
  | nil => intro i g; rfl
  | cons ch rest ih =>
    intro i g
    simp only [placeWordLetters, writesAtCell]
    by_cases hb : 0 ≤ pw.row + (i : Int) * pw.orientation.dr ∧
        pw.row + (i : Int) * pw.orientation.dr < (rows : Int) ∧
        0 ≤ pw.col + (i : Int) * pw.orientation.dc ∧
        pw.col + (i : Int) * pw.orientation.dc < (cols : Int)
    · by_cases heq : pw.row + (i : Int) * pw.orientation.dr = r ∧
          pw.col + (i : Int) * pw.orientation.dc = c
      · rw [if_pos hb, if_pos ⟨hb, heq.1, heq.2⟩, ih]
        simp only [List.singleton_append, List.foldl_cons]
        congr 1
        simp only [updateGrid, heq.1, heq.2]
        simp
      · rw [if_pos hb, if_neg (by tauto), ih]
        simp only [List.nil_append]
        congr 1
        simp only [updateGrid]
        rw [if_neg]
        intro hcon
        exact heq ⟨hcon.1.symm ▸ rfl, hcon.2.symm ▸ rfl⟩
    · rw [if_neg hb, if_neg (by tauto), ih]
      simp

theorem placeAllLetters_cell (rows cols : Nat) (r c : Int) :
    ∀ (p : List PlacedWord) (g : Grid),
      placeAllLetters rows cols p g r c =
        (allWritesAtCell rows cols p r c).foldl
          (fun cell cw => writeChar cell cw.1 cw.2) (g r c) := by
  intro p
  induction p with
  | nil => intro g; rfl
  | cons pw rest ih =>
    intro g
    simp only [placeAllLetters, allWritesAtCell, List.flatMap_cons,
      List.foldl_cons, List.foldl_append] at *
    rw [ih (placeWordLetters rows cols pw pw.word 0 g)]
    congr 1
    rw [placeWordLetters_cell]
    generalize (g r c) = cell
    generalize writesAtCell rows cols pw r c pw.word 0 = ws
    induction ws generalizing cell with
    | nil => rfl
    | cons x xs ihw => simp only [List.map_cons, List.foldl_cons]; exact ihw _

theorem foldl_writeChar_isError :
    ∀ (ws : List (Char × Nat)) (cell : GridCellData),
      (ws.foldl (fun cell cw => writeChar cell cw.1 cw.2) cell).isError =
        (cell.isError || mismatchScan cell.char (ws.map Prod.fst)) := by
  intro ws
  induction ws with
  | nil => intro cell; simp [mismatchScan]
  | cons cw rest ih =>
    intro cell
    simp only [List.foldl_cons, List.map_cons, mismatchScan]
    rw [ih]
    simp only [writeChar]
    rw [Bool.or_assoc]

theorem mismatchScan_some_iff :
    ∀ (ls : List Char) (x : Char),
      mismatchScan (some x) ls = true ↔ ∃ y ∈ ls, y ≠ x := by
  intro ls
  induction ls with
  | nil => intro x; simp [mismatchScan]
  | cons ch rest ih =>
    intro x
    simp only [mismatchScan, Bool.or_eq_true, bne_iff_ne, ne_eq]
    constructor
    · intro h
      rcases h with h | h
      · exact ⟨ch, List.mem_cons_self ch rest, fun hc => h hc.symm⟩
      · obtain ⟨y, hy, hne⟩ := (ih ch).mp h
        by_cases hxc : x = ch
        · exact ⟨y, List.mem_cons_of_mem ch hy, by rw [hxc]; exact hne⟩
        · exact ⟨ch, List.mem_cons_self ch rest, fun hc => hxc hc.symm⟩
    · intro ⟨y, hy, hne⟩
      by_cases hxc : x = ch
      · right
        apply (ih ch).mpr
        rcases List.mem_cons.mp hy with rfl | hmem
        · exact absurd hxc.symm hne
        · exact ⟨y, hmem, by rw [← hxc]; exact hne⟩
      · left
        exact hxc

theorem mismatchScan_none_iff :
    ∀ ls : List Char,
      mismatchScan none ls = true ↔ ∃ a ∈ ls, ∃ b ∈ ls, a ≠ b := by
  intro ls
  cases ls with
  | nil => simp [mismatchScan]
  | cons ch rest =>
    have hstep : mismatchScan none (ch :: rest) = mismatchScan (some ch) rest := by
      simp [mismatchScan]
    rw [hstep, mismatchScan_some_iff]
    constructor
    · intro ⟨y, hy, hne⟩
      exact ⟨ch, List.mem_cons_self ch rest, y, List.mem_cons_of_mem ch hy,
        fun hc => hne hc.symm⟩
    · intro ⟨a, ha, b, hb, hne⟩
      rcases List.mem_cons.mp ha with rfl | hma
      · rcases List.mem_cons.mp hb with rfl | hmb
        · exact absurd rfl hne
        · exact ⟨b, hmb, fun hc => hne hc.symm⟩
      · rcases List.mem_cons.mp hb with rfl | hmb
        · exact ⟨a, hma, hne⟩
        · by_cases hac : a = ch
          · exact ⟨b, hmb, fun hc => hne (hac.trans hc.symm)⟩
          · exact ⟨a, hma, hac⟩

theorem numberCell_grid_isError (st : NumberState) (rc : Int × Int) (r c : Int) :
    ((numberCell st rc).grid r c).isError = (st.grid r c).isError := by
  by_cases h : 0 < (st.placedWords.filter (fun w => startsAt w rc)).length
  · simp only [numberCell, if_pos h, updateGrid]
    split
    · rename_i hcond
      rw [hcond.1, hcond.2]
    · rfl
  · simp only [numberCell, if_neg h]

theorem foldl_numberCell_grid_isError :
    ∀ (cs : List (Int × Int)) (st : NumberState) (r c : Int),
      (((cs.foldl numberCell st).grid) r c).isError = (st.grid r c).isError := by
  intro cs
  induction cs with
  | nil => intro st r c; rfl
  | cons rc rest ih =>
    intro st r c
    rw [List.foldl_cons, ih, numberCell_grid_isError]

theorem mem_writesAtCell (rows cols : Nat) (pw : PlacedWord) (r c : Int) :
    ∀ (ls : List Char) (i : Nat) (x : Char),
      x ∈ writesAtCell rows cols pw r c ls i ↔
        ∃ t, t < ls.length ∧
          (0 ≤ r ∧ r < (rows : Int) ∧ 0 ≤ c ∧ c < (cols : Int)) ∧
          pw.row + ((i + t : Nat) : Int) * pw.orientation.dr = r ∧
          pw.col + ((i + t : Nat) : Int) * pw.orientation.dc = c ∧
          ls.getD t ' ' = x := by
  intro ls
  induction ls with
  | nil => intro i x; simp [writesAtCell]
  | cons ch rest ih =>
    intro i x
    simp only [writesAtCell, List.mem_append]
    constructor
    · intro h
      rcases h with h | h
      · by_cases hg : (0 ≤ pw.row + (i : Int) * pw.orientation.dr ∧
            pw.row + (i : Int) * pw.orientation.dr < (rows : Int) ∧
            0 ≤ pw.col + (i : Int) * pw.orientation.dc ∧
            pw.col + (i : Int) * pw.orientation.dc < (cols : Int)) ∧
            pw.row + (i : Int) * pw.orientation.dr = r ∧
            pw.col + (i : Int) * pw.orientation.dc = c
        · rw [if_pos hg] at h
          have hx : x = ch := by simpa using h
          refine ⟨0, by simp, ?_, ?_, ?_, by simpa using hx.symm⟩
          · obtain ⟨⟨b1, b2, b3, b4⟩, e1, e2⟩ := hg
            rw [e1] at b1 b2
            rw [e2] at b3 b4
            exact ⟨b1, b2, b3, b4⟩
          · simpa [Nat.add_zero] using hg.2.1
          · simpa [Nat.add_zero] using hg.2.2
        · rw [if_neg hg] at h
          exact absurd h (List.not_mem_nil x)
      · obtain ⟨t', ht', hb, he1, he2, hget⟩ := ih (i + 1) x |>.mp h
        refine ⟨t' + 1, by simpa using Nat.succ_lt_succ ht', hb, ?_, ?_, by simpa using hget⟩
        · have harith : i + (t' + 1) = i + 1 + t' := by omega
          rw [harith]
          exact he1
        · have harith : i + (t' + 1) = i + 1 + t' := by omega
          rw [harith]
          exact he2
    · intro ⟨t, ht, hb, he1, he2, hget⟩
      cases t with
      | zero =>
        left
        rw [if_pos]
        · simp only [List.getD_cons_zero] at hget
          simp [hget]
        · constructor
          · constructor
            · rw [show pw.row + (i : Int) * pw.orientation.dr = r by
                simpa [Nat.add_zero] using he1]
              exact hb.1
            · refine ⟨?_, ?_, ?_⟩
              · rw [show pw.row + (i : Int) * pw.orientation.dr = r by
                  simpa [Nat.add_zero] using he1]
                exact hb.2.1
              · rw [show pw.col + (i : Int) * pw.orientation.dc = c by
                  simpa [Nat.add_zero] using he2]
                exact hb.2.2.1
              · rw [show pw.col + (i : Int) * pw.orientation.dc = c by
                  simpa [Nat.add_zero] using he2]
                exact hb.2.2.2
          · constructor
            · simpa [Nat.add_zero] using he1
            · simpa [Nat.add_zero] using he2
      | succ t' =>
        right
        apply (ih (i + 1) x).mpr
        refine ⟨t', by simp only [List.length_cons] at ht; omega, hb, ?_, ?_,
          by simpa using hget⟩
        · have harith : i + 1 + t' = i + (t' + 1) := by omega
          rw [harith]
          exact he1
        · have harith : i + 1 + t' = i + (t' + 1) := by omega
          rw [harith]
          exact he2

theorem mem_allWrites_fst (rows cols : Nat) (r c : Int) (p : List PlacedWord)
    (x : Char) :
    x ∈ (allWritesAtCell rows cols p r c).map Prod.fst ↔
      ∃ pw ∈ p, ∃ t, t < pw.word.length ∧
        (0 ≤ r ∧ r < (rows : Int) ∧ 0 ≤ c ∧ c < (cols : Int)) ∧
        pw.row + (t : Int) * pw.orientation.dr = r ∧
        pw.col + (t : Int) * pw.orientation.dc = c ∧
        pw.word.getD t ' ' = x := by
  simp only [allWritesAtCell, List.map_flatMap, List.map_map, List.mem_flatMap]
  constructor
  · intro ⟨pw, hpw, hx⟩
    have hx' : x ∈ writesAtCell rows cols pw r c pw.word 0 := by
      simpa [Function.comp] using hx
    obtain ⟨t, ht, hb, he1, he2, hget⟩ :=
      (mem_writesAtCell rows cols pw r c pw.word 0 x).mp hx'
    exact ⟨pw, hpw, t, ht, hb, by simpa using he1, by simpa using he2, hget⟩
  · intro ⟨pw, hpw, t, ht, hb, he1, he2, hget⟩
    refine ⟨pw, hpw, ?_⟩
    have hx' : x ∈ writesAtCell rows cols pw r c pw.word 0 :=
      (mem_writesAtCell rows cols pw r c pw.word 0 x).mpr
        ⟨t, ht, hb, by simpa using he1, by simpa using he2, hget⟩
    simpa [Function.comp] using hx'

theorem calculateGrid_isError_eq (p : List PlacedWord) (rows cols : Nat)
    (r c : Int) :
    (((calculateGrid p rows cols).grid) r c).isError =
      mismatchScan none ((allWritesAtCell rows cols p r c).map Prod.fst) := by
  simp only [calculateGrid]
  rw [foldl_numberCell_grid_isError]
  show (placeAllLetters rows cols p (createEmptyGrid rows cols) r c).isError = _
  rw [placeAllLetters_cell, foldl_writeChar_isError]
  simp [createEmptyGrid]

/-- A second demonstration placement: the one-letter word "B" at the
top-left corner, oriented down. -/
def demoPlacedB : PlacedWord :=
  mkPlaced { id := 1, word := ['B'], clue := "demo" } 0 0 .down

/-- C5: an in-bounds cell of a derived board carries the collision flag iff
two placements assign different letters to that cell; and the flag does not
depend on the order of the placement list. -/
theorem calculateGrid_collision_iff (p : List PlacedWord) (rows cols : Nat)
    (r c : Int) (hr : 0 ≤ r ∧ r < (rows : Int)) (hc : 0 ≤ c ∧ c < (cols : Int)) :
    ((((calculateGrid p rows cols).grid) r c).isError = true ↔
      ∃ pw1 ∈ p, ∃ pw2 ∈ p, ∃ i1 i2 : Nat,
        i1 < pw1.word.length ∧ i2 < pw2.word.length ∧
        pw1.row + (i1 : Int) * pw1.orientation.dr = r ∧
        pw1.col + (i1 : Int) * pw1.orientation.dc = c ∧
        pw2.row + (i2 : Int) * pw2.orientation.dr = r ∧
        pw2.col + (i2 : Int) * pw2.orientation.dc = c ∧
        pw1.word.getD i1 ' ' ≠ pw2.word.getD i2 ' ') ∧
    ∀ q : List PlacedWord, q.Perm p →
      (((calculateGrid q rows cols).grid) r c).isError =
        (((calculateGrid p rows cols).grid) r c).isError := by
  have key : ∀ l : List PlacedWord,
      ((((calculateGrid l rows cols).grid) r c).isError = true ↔
        ∃ pw1 ∈ l, ∃ pw2 ∈ l, ∃ i1 i2 : Nat,
          i1 < pw1.word.length ∧ i2 < pw2.word.length ∧
          pw1.row + (i1 : Int) * pw1.orientation.dr = r ∧
          pw1.col + (i1 : Int) * pw1.orientation.dc = c ∧
          pw2.row + (i2 : Int) * pw2.orientation.dr = r ∧
          pw2.col + (i2 : Int) * pw2.orientation.dc = c ∧
          pw1.word.getD i1 ' ' ≠ pw2.word.getD i2 ' ') := by
    intro l
    rw [calculateGrid_isError_eq, mismatchScan_none_iff]
    constructor
    · intro ⟨a, ha, b, hb, hne⟩
      obtain ⟨pw1, hpw1, i1, hi1, _, he11, he12, hget1⟩ :=
        (mem_allWrites_fst rows cols r c l a).mp ha
      obtain ⟨pw2, hpw2, i2, hi2, _, he21, he22, hget2⟩ :=
        (mem_allWrites_fst rows cols r c l b).mp hb
      exact ⟨pw1, hpw1, pw2, hpw2, i1, i2, hi1, hi2, he11, he12, he21, he22,
        by rw [hget1, hget2]; exact hne⟩
    · intro ⟨pw1, hpw1, pw2, hpw2, i1, i2, hi1, hi2, he11, he12, he21, he22, hne⟩
      refine ⟨pw1.word.getD i1 ' ', ?_, pw2.word.getD i2 ' ', ?_, hne⟩
      · exact (mem_allWrites_fst rows cols r c l _).mpr
          ⟨pw1, hpw1, i1, hi1, ⟨hr.1, hr.2, hc.1, hc.2⟩, he11, he12, rfl⟩
      · exact (mem_allWrites_fst rows cols r c l _).mpr
          ⟨pw2, hpw2, i2, hi2, ⟨hr.1, hr.2, hc.1, hc.2⟩, he21, he22, rfl⟩
  refine ⟨key p, ?_⟩
  intro q hq
  have hiff : (((calculateGrid q rows cols).grid) r c).isError = true ↔
      (((calculateGrid p rows cols).grid) r c).isError = true := by
    rw [key q, key p]
    constructor
    · intro ⟨pw1, h1, pw2, h2, rest⟩
      exact ⟨pw1, hq.mem_iff.mp h1, pw2, hq.mem_iff.mp h2, rest⟩
    · intro ⟨pw1, h1, pw2, h2, rest⟩
      exact ⟨pw1, hq.mem_iff.mpr h1, pw2, hq.mem_iff.mpr h2, rest⟩
  by_cases hb : (((calculateGrid q rows cols).grid) r c).isError = true
  · rw [hb, hiff.mp hb]
  · have hb2 : ¬(((calculateGrid p rows cols).grid) r c).isError = true :=
      fun hp => hb (hiff.mpr hp)
    rw [Bool.not_eq_true] at hb hb2
    rw [hb, hb2]

/-- C5 witness: the collision characterization applied to the one-cell board
holding both "A" (across) and "B" (down) at the origin. -/
theorem calculateGrid_collision_iff_witness :
    ((((calculateGrid [demoPlacedA, demoPlacedB] 1 1).grid) 0 0).isError = true ↔
      ∃ pw1 ∈ [demoPlacedA, demoPlacedB], ∃ pw2 ∈ [demoPlacedA, demoPlacedB],
        ∃ i1 i2 : Nat,
        i1 < pw1.word.length ∧ i2 < pw2.word.length ∧
        pw1.row + (i1 : Int) * pw1.orientation.dr = 0 ∧
        pw1.col + (i1 : Int) * pw1.orientation.dc = 0 ∧
        pw2.row + (i2 : Int) * pw2.orientation.dr = 0 ∧
        pw2.col + (i2 : Int) * pw2.orientation.dc = 0 ∧
        pw1.word.getD i1 ' ' ≠ pw2.word.getD i2 ' ') ∧
    ∀ q : List PlacedWord, q.Perm [demoPlacedA, demoPlacedB] →
      (((calculateGrid q 1 1).grid) 0 0).isError =
        (((calculateGrid [demoPlacedA, demoPlacedB] 1 1).grid) 0 0).isError :=
  calculateGrid_collision_iff [demoPlacedA, demoPlacedB] 1 1 0 0 (by decide)
    (by decide)

theorem startsAt_iff (w : PlacedWord) (rc : Int × Int) :
    startsAt w rc = true ↔ (w.row, w.col) = rc := by
  cases rc with
  | mk a b =>
    simp [startsAt, Prod.ext_iff]

theorem startsAt_stripNumber (w : PlacedWord) (rc : Int × Int) :
    startsAt (stripNumber w) rc = startsAt w rc := rfl

theorem filter_startsAt_of_strip_eq (l₁ l₂ : List PlacedWord)
    (h : l₁.map stripNumber = l₂.map stripNumber) (rc : Int × Int) :
    (l₁.filter (fun w => startsAt w rc)).length =
      (l₂.filter (fun w => startsAt w rc)).length := by
  have key : ∀ l : List PlacedWord,
      (l.filter (fun w => startsAt w rc)).length =
        ((l.map stripNumber).filter (fun w => startsAt w rc)).length := by
    intro l
    induction l with
    | nil => rfl
    | cons w rest ih =>
      simp only [List.map_cons, List.filter_cons, startsAt_stripNumber]
      by_cases hs : startsAt w rc = true <;> simp [hs, ih]
  rw [key l₁, key l₂, h]

theorem origin_iff_filter_pos (l : List PlacedWord) (rc : Int × Int) :
    isOriginCell l rc = true ↔
      0 < (l.filter (fun w => startsAt w rc)).length := by
  constructor
  · intro h
    obtain ⟨w, hw, hs⟩ := List.any_eq_true.mp h
    have hmem : w ∈ l.filter (fun w => startsAt w rc) :=
      List.mem_filter.mpr ⟨hw, hs⟩
    exact List.length_pos.mpr (List.ne_nil_of_mem hmem)
  · intro h
    have hne : l.filter (fun w => startsAt w rc) ≠ [] := List.length_pos.mp h
    obtain ⟨w, hw⟩ := List.exists_mem_of_ne_nil _ hne
    have hm := List.mem_filter.mp hw
    exact List.any_eq_true.mpr ⟨w, hm.1, hm.2⟩

theorem isOriginCell_of_strip_eq (l₁ l₂ : List PlacedWord)
    (h : l₁.map stripNumber = l₂.map stripNumber) (rc : Int × Int) :
    isOriginCell l₁ rc = isOriginCell l₂ rc := by
  have h1 := filter_startsAt_of_strip_eq l₁ l₂ h rc
  by_cases ho : isOriginCell l₁ rc = true
  · have hpos := (origin_iff_filter_pos l₁ rc).mp ho
    rw [ho, (origin_iff_filter_pos l₂ rc).mpr (by omega)]
  · have h2 : ¬isOriginCell l₂ rc = true := by
      intro hc
      have := (origin_iff_filter_pos l₂ rc).mp hc
      exact ho ((origin_iff_filter_pos l₁ rc).mpr (by omega))
    rw [Bool.not_eq_true] at ho h2
    rw [ho, h2]

theorem numberCell_grid_other (st : NumberState) (rc rc' : Int × Int)
    (h : rc' ≠ rc) :
    (numberCell st rc).grid rc'.1 rc'.2 = st.grid rc'.1 rc'.2 := by
  by_cases hp : 0 < (st.placedWords.filter (fun w => startsAt w rc)).length
  · simp only [numberCell, if_pos hp, updateGrid]
    rw [if_neg]
    intro hcon
    exact h (Prod.ext hcon.1 hcon.2)
  · simp only [numberCell, if_neg hp]

theorem foldl_grid_not_mem :
    ∀ (cs : List (Int × Int)) (st : NumberState) (rc : Int × Int), rc ∉ cs →
      ((cs.foldl numberCell st).grid) rc.1 rc.2 = st.grid rc.1 rc.2 := by
  intro cs
  induction cs with
  | nil => intro st rc _; rfl
  | cons x rest ih =>
    intro st rc h
    rw [List.foldl_cons, ih (numberCell st x) rc (fun hm => h (List.mem_cons_of_mem x hm)),
      numberCell_grid_other st x rc (fun he => h (he ▸ List.mem_cons_self x rest))]

theorem foldl_currentNumber (p₀ : List PlacedWord) :
    ∀ (cs : List (Int × Int)) (st : NumberState),
      st.placedWords.map stripNumber = p₀.map stripNumber →
      (cs.foldl numberCell st).currentNumber =
        st.currentNumber + countOrigins p₀ cs := by
  intro cs
  induction cs with
  | nil => intro st _; simp [countOrigins]
  | cons x rest ih =>
    intro st hstrip
    rw [List.foldl_cons]
    have hfilter := filter_startsAt_of_strip_eq st.placedWords p₀ hstrip x
    have horig := isOriginCell_of_strip_eq st.placedWords p₀ hstrip x
    have hstrip' : (numberCell st x).placedWords.map stripNumber =
        p₀.map stripNumber := by
      rw [numberCell_strip]
      exact hstrip
    rw [ih (numberCell st x) hstrip']
    by_cases hp : 0 < (st.placedWords.filter (fun w => startsAt w x)).length
    · have hox : isOriginCell p₀ x = true := by
        rw [← horig]
        exact (origin_iff_filter_pos st.placedWords x).mpr hp
      simp only [numberCell, if_pos hp, countOrigins, List.filter_cons, hox,
        if_true, List.length_cons]
      omega
    · have hox : ¬isOriginCell p₀ x = true := by
        rw [← horig]
        intro hc
        exact hp ((origin_iff_filter_pos st.placedWords x).mp hc)
      rw [Bool.not_eq_true] at hox
      simp only [numberCell, if_neg hp, countOrigins, List.filter_cons, hox]
      simp

theorem countOrigins_cons (p : List PlacedWord) (x : Int × Int)
    (cs : List (Int × Int)) :
    countOrigins p (x :: cs) =
      (if isOriginCell p x = true then 1 else 0) + countOrigins p cs := by
  simp only [countOrigins, List.filter_cons]
  by_cases h : isOriginCell p x = true
  · simp only [h, if_true, List.length_cons]
    omega
  · simp [h]

theorem countOrigins_append (p : List PlacedWord) (cs₁ cs₂ : List (Int × Int)) :
    countOrigins p (cs₁ ++ cs₂) = countOrigins p cs₁ + countOrigins p cs₂ := by
  simp [countOrigins, List.filter_append]

theorem numberCell_currentNumber (p₀ : List PlacedWord) (st : NumberState)
    (x : Int × Int)
    (hstrip : st.placedWords.map stripNumber = p₀.map stripNumber) :
    (numberCell st x).currentNumber =
      st.currentNumber + (if isOriginCell p₀ x = true then 1 else 0) := by
  have hfilter := filter_startsAt_of_strip_eq st.placedWords p₀ hstrip x
  have horig := isOriginCell_of_strip_eq st.placedWords p₀ hstrip x
  by_cases hp : 0 < (st.placedWords.filter (fun w => startsAt w x)).length
  · have hox : isOriginCell p₀ x = true := by
      rw [← horig]
      exact (origin_iff_filter_pos st.placedWords x).mpr hp
    simp [numberCell, if_pos hp, hox]
  · have hox : isOriginCell p₀ x = false := by
      rw [← horig]
      rw [← Bool.not_eq_true]
      intro hc
      exact hp ((origin_iff_filter_pos st.placedWords x).mp hc)
    simp [numberCell, if_neg hp, hox]

theorem foldl_clueNumber_split (p₀ : List PlacedWord) :
    ∀ (cs1 : List (Int × Int)) (rc : Int × Int) (cs2 : List (Int × Int))
      (st : NumberState), rc ∉ cs1 → rc ∉ cs2 →
      st.placedWords.map stripNumber = p₀.map stripNumber →
      (((((cs1 ++ rc :: cs2).foldl numberCell st).grid) rc.1 rc.2).clueNumber) =
        if isOriginCell p₀ rc = true then
          some (st.currentNumber + countOrigins p₀ cs1)
        else (st.grid rc.1 rc.2).clueNumber := by
  intro cs1
  induction cs1 with
  | nil =>
    intro rc cs2 st _ h2 hstrip
    rw [List.nil_append, List.foldl_cons,
      foldl_grid_not_mem cs2 (numberCell st rc) rc h2]
    have hfilter := filter_startsAt_of_strip_eq st.placedWords p₀ hstrip rc
    have horig := isOriginCell_of_strip_eq st.placedWords p₀ hstrip rc
    by_cases hp : 0 < (st.placedWords.filter (fun w => startsAt w rc)).length
    · have hox : isOriginCell p₀ rc = true := by
        rw [← horig]
        exact (origin_iff_filter_pos st.placedWords rc).mpr hp
      rw [if_pos hox]
      simp only [numberCell, if_pos hp, updateGrid, countOrigins,
        List.filter_nil, List.length_nil, Nat.add_zero]
      simp
    · have hox : isOriginCell p₀ rc = false := by
        rw [← horig, ← Bool.not_eq_true]
        intro hc
        exact hp ((origin_iff_filter_pos st.placedWords rc).mp hc)
      rw [if_neg (by simp [hox])]
      simp only [numberCell, if_neg hp]
  | cons x cs1' ih =>
    intro rc cs2 st h1 h2 hstrip
    rw [List.cons_append, List.foldl_cons]
    have hx : rc ≠ x := fun he => h1 (he ▸ List.mem_cons_self x cs1')
    have hstrip' : (numberCell st x).placedWords.map stripNumber =
        p₀.map stripNumber := by
      rw [numberCell_strip]
      exact hstrip
    rw [ih rc cs2 (numberCell st x)
      (fun hm => h1 (List.mem_cons_of_mem x hm)) h2 hstrip']
    rw [numberCell_grid_other st x rc hx,
      numberCell_currentNumber p₀ st x hstrip, countOrigins_cons]
    by_cases ho : isOriginCell p₀ rc = true
    · rw [if_pos ho, if_pos ho]
      congr 1
      omega
    · rw [if_neg ho, if_neg ho]

theorem range_split (n m : Nat) (h : m < n) :
    List.range n =
      List.range m ++ m :: ((List.range (n - m - 1)).map (fun t => m + 1 + t)) := by
  have hn : n = m + 1 + (n - m - 1) := by omega
  calc List.range n = List.range (m + 1 + (n - m - 1)) := by rw [← hn]
    _ = List.range (m + 1) ++ (List.range (n - m - 1)).map ((m + 1) + ·) :=
        List.range_add (m + 1) (n - m - 1)
    _ = (List.range m ++ [m]) ++ (List.range (n - m - 1)).map ((m + 1) + ·) := by
        rw [List.range_succ]
    _ = List.range m ++ m :: ((List.range (n - m - 1)).map (fun t => m + 1 + t)) := by
        simp [List.append_assoc]

theorem rowCells_split (cols rn cn : Nat) (hc : cn < cols) :
    rowCells cols rn =
      (List.range cn).map (fun (c' : Nat) => ((rn : Int), (c' : Int))) ++
        ((rn : Int), (cn : Int)) ::
          (List.range (cols - cn - 1)).map
            (fun t => ((rn : Int), ((cn + 1 + t : Nat) : Int))) := by
  simp only [rowCells]
  rw [range_split cols cn hc]
  rw [List.map_append, List.map_cons, List.map_map]
  simp [Function.comp]

theorem rowMajor_decomp (rows cols rn cn : Nat) (hr : rn < rows) (hc : cn < cols) :
    rowMajorCells rows cols =
      cellsBefore cols rn cn ++ ((rn : Int), (cn : Int)) ::
        ((List.range (cols - cn - 1)).map
            (fun t => ((rn : Int), ((cn + 1 + t : Nat) : Int))) ++
          (List.range (rows - rn - 1)).flatMap
            (fun t => rowCells cols (rn + 1 + t))) := by
  simp only [rowMajorCells, cellsBefore]
  rw [range_split rows rn hr]
  rw [List.flatMap_append, List.flatMap_cons, List.flatMap_map]
  rw [rowCells_split cols rn cn hc]
  simp [Function.comp, List.append_assoc]

theorem mem_rowCells (cols r : Nat) (a b : Int) :
    (a, b) ∈ rowCells cols r ↔ a = (r : Int) ∧ 0 ≤ b ∧ b < (cols : Int) := by
  constructor
  · intro h
    obtain ⟨c', hc', he⟩ := List.mem_map.mp h
    rw [List.mem_range] at hc'
    rw [Prod.ext_iff] at he
    obtain ⟨he1, he2⟩ := he
    dsimp at he1 he2
    subst he1
    subst he2
    exact ⟨rfl, by omega, by omega⟩
  · rintro ⟨ha, hb1, hb2⟩
    subst ha
    apply List.mem_map.mpr
    refine ⟨b.toNat, List.mem_range.mpr (by omega), ?_⟩
    rw [Prod.ext_iff]
    refine ⟨rfl, ?_⟩
    dsimp
    rw [Int.toNat_of_nonneg hb1]

theorem mem_rowMajorCells (rows cols : Nat) (a b : Int) :
    (a, b) ∈ rowMajorCells rows cols ↔
      0 ≤ a ∧ a < (rows : Int) ∧ 0 ≤ b ∧ b < (cols : Int) := by
  constructor
  · intro h
    obtain ⟨r', hr', hm⟩ := List.mem_flatMap.mp h
    rw [List.mem_range] at hr'
    obtain ⟨ha, hb1, hb2⟩ := (mem_rowCells cols r' a b).mp hm
    subst ha
    exact ⟨by omega, by omega, hb1, hb2⟩
  · rintro ⟨h1, h2, h3, h4⟩
    apply List.mem_flatMap.mpr
    exact ⟨a.toNat, List.mem_range.mpr (by omega),
      (mem_rowCells cols a.toNat a b).mpr
        ⟨(Int.toNat_of_nonneg h1).symm, h3, h4⟩⟩

theorem mem_cellsBefore_iff (cols rn cn : Nat) (a b : Int) :
    (a, b) ∈ cellsBefore cols rn cn ↔
      (0 ≤ a ∧ a < (rn : Int) ∧ 0 ≤ b ∧ b < (cols : Int)) ∨
        (a = (rn : Int) ∧ 0 ≤ b ∧ b < (cn : Int)) := by
  constructor
  · intro h
    rcases List.mem_append.mp h with h | h
    · obtain ⟨r', hr', hm⟩ := List.mem_flatMap.mp h
      rw [List.mem_range] at hr'
      obtain ⟨ha, hb1, hb2⟩ := (mem_rowCells cols r' a b).mp hm
      subst ha
      exact Or.inl ⟨by omega, by omega, hb1, hb2⟩
    · obtain ⟨c', hc', he⟩ := List.mem_map.mp h
      rw [List.mem_range] at hc'
      rw [Prod.ext_iff] at he
      obtain ⟨he1, he2⟩ := he
      dsimp at he1 he2
      subst he1
      subst he2
      exact Or.inr ⟨rfl, by omega, by omega⟩
  · intro h
    rcases h with ⟨h1, h2, h3, h4⟩ | ⟨h1, h3, h4⟩
    · apply List.mem_append.mpr
      left
      apply List.mem_flatMap.mpr
      exact ⟨a.toNat, List.mem_range.mpr (by omega),
        (mem_rowCells cols a.toNat a b).mpr
          ⟨(Int.toNat_of_nonneg h1).symm, h3, h4⟩⟩
    · apply List.mem_append.mpr
      right
      apply List.mem_map.mpr
      refine ⟨b.toNat, List.mem_range.mpr (by omega), ?_⟩
      rw [Prod.ext_iff]
      refine ⟨h1.symm, ?_⟩
      dsimp
      rw [Int.toNat_of_nonneg h3]

theorem not_mem_cellsBefore (cols rn cn : Nat) :
    ((rn : Int), (cn : Int)) ∉ cellsBefore cols rn cn := by
  intro h
  rcases (mem_cellsBefore_iff cols rn cn _ _).mp h with ⟨_, h2, _, _⟩ | ⟨_, _, h4⟩
  · omega
  · omega

theorem not_mem_afterCells (rows cols rn cn : Nat) :
    ((rn : Int), (cn : Int)) ∉
      ((List.range (cols - cn - 1)).map
          (fun t => ((rn : Int), ((cn + 1 + t : Nat) : Int))) ++
        (List.range (rows - rn - 1)).flatMap
          (fun t => rowCells cols (rn + 1 + t))) := by
  intro h
  rcases List.mem_append.mp h with h | h
  · obtain ⟨t, _, he⟩ := List.mem_map.mp h
    rw [Prod.ext_iff] at he
    have he2 := he.2
    dsimp at he2
    have : cn + 1 + t = cn := by exact_mod_cast he2
    omega
  · obtain ⟨t, _, hm⟩ := List.mem_flatMap.mp h
    obtain ⟨he1, _, _⟩ := (mem_rowCells cols (rn + 1 + t) _ _).mp hm
    have : rn = rn + 1 + t := by exact_mod_cast he1
    omega

theorem cellsBefore_extend (cols r1 c1 r2 c2 : Nat) (hc1 : c1 < cols)
    (hlt : r1 < r2 ∨ (r1 = r2 ∧ c1 < c2)) :
    ∃ mid, cellsBefore cols r2 c2 =
      cellsBefore cols r1 c1 ++ ((r1 : Int), (c1 : Int)) :: mid := by
  rcases hlt with h | ⟨he, h⟩
  · refine ⟨(List.range (cols - c1 - 1)).map
        (fun t => ((r1 : Int), ((c1 + 1 + t : Nat) : Int))) ++
      ((List.range (r2 - r1 - 1)).flatMap (fun t => rowCells cols (r1 + 1 + t)) ++
        (List.range c2).map (fun (c' : Nat) => ((r2 : Int), (c' : Int)))), ?_⟩
    simp only [cellsBefore]
    rw [range_split r2 r1 h]
    rw [List.flatMap_append, List.flatMap_cons, List.flatMap_map]
    rw [rowCells_split cols r1 c1 hc1]
    simp [Function.comp, List.append_assoc]
  · subst he
    refine ⟨(List.range (c2 - c1 - 1)).map
      (fun t => ((r1 : Int), ((c1 + 1 + t : Nat) : Int))), ?_⟩
    simp only [cellsBefore]
    rw [range_split c2 c1 h]
    rw [List.map_append, List.map_cons, List.map_map]
    simp [Function.comp, List.append_assoc]

theorem foldl_writeChar_clueNumber :
    ∀ (ws : List (Char × Nat)) (cell : GridCellData),
      (ws.foldl (fun cell cw => writeChar cell cw.1 cw.2) cell).clueNumber =
        cell.clueNumber := by
  intro ws
  induction ws with
  | nil => intro cell; rfl
  | cons cw rest ih =>
    intro cell
    rw [List.foldl_cons, ih]
    rfl

theorem placeAllLetters_clueNumber_none (rows cols : Nat) (p : List PlacedWord)
    (r c : Int) :
    ((placeAllLetters rows cols p (createEmptyGrid rows cols)) r c).clueNumber =
      none := by
  rw [placeAllLetters_cell, foldl_writeChar_clueNumber]
  rfl

theorem calculateGrid_clueNumber_char (p : List PlacedWord) (rows cols rn cn : Nat)
    (hr : rn < rows) (hc : cn < cols) :
    ((((calculateGrid p rows cols).grid) (rn : Int) (cn : Int)).clueNumber) =
      if isOriginCell p ((rn : Int), (cn : Int)) = true then
        some (1 + countOrigins p (cellsBefore cols rn cn))
      else none := by
  simp only [calculateGrid]
  show ((((rowMajorCells rows cols).foldl numberCell
      { currentNumber := 1, clues := [], placedWords := p,
        grid := placeAllLetters rows cols p (createEmptyGrid rows cols) }).grid)
      (rn : Int) (cn : Int)).clueNumber = _
  rw [rowMajor_decomp rows cols rn cn hr hc]
  have hsplit := foldl_clueNumber_split p (cellsBefore cols rn cn)
    ((rn : Int), (cn : Int))
    ((List.range (cols - cn - 1)).map
        (fun t => ((rn : Int), ((cn + 1 + t : Nat) : Int))) ++
      (List.range (rows - rn - 1)).flatMap (fun t => rowCells cols (rn + 1 + t)))
    { currentNumber := 1, clues := [], placedWords := p,
      grid := placeAllLetters rows cols p (createEmptyGrid rows cols) }
    (not_mem_cellsBefore cols rn cn) (not_mem_afterCells rows cols rn cn) rfl
  dsimp only at hsplit
  rw [hsplit]
  by_cases ho : isOriginCell p ((rn : Int), (cn : Int)) = true
  · rw [if_pos ho, if_pos ho]
  · rw [if_neg ho, if_neg ho]
    exact placeAllLetters_clueNumber_none rows cols p (rn : Int) (cn : Int)

theorem foldl_clues_ge_one :
    ∀ (cs : List (Int × Int)) (st : NumberState), 1 ≤ st.currentNumber →
      (∀ e ∈ st.clues, 1 ≤ e.number) →
      ∀ e ∈ ((cs.foldl numberCell st).clues), 1 ≤ e.number := by
  intro cs
  induction cs with
  | nil => intro st _ hcl e he; exact hcl e he
  | cons x rest ih =>
    intro st hcn hcl e he
    rw [List.foldl_cons] at he
    by_cases hp : 0 < (st.placedWords.filter (fun w => startsAt w x)).length
    · refine ih (numberCell st x) ?_ ?_ e he
      · simp only [numberCell, if_pos hp]
        omega
      · simp only [numberCell, if_pos hp]
        intro e' he'
        rcases List.mem_append.mp he' with h | h
        · exact hcl e' h
        · obtain ⟨w, _, hw⟩ := List.mem_map.mp h
          rw [← hw]
          exact hcn
    · refine ih (numberCell st x) ?_ ?_ e he
      · simp only [numberCell, if_neg hp]
        exact hcn
      · simp only [numberCell, if_neg hp]
        exact hcl

theorem numberCell_placedWords (st : NumberState) (x : Int × Int) :
    (numberCell st x).placedWords =
      st.placedWords.map (fun w =>
        if startsAt w x then { w with number := some st.currentNumber }
        else w) := by
  by_cases hp : 0 < (st.placedWords.filter (fun w => startsAt w x)).length
  · simp [numberCell, hp]
  · simp only [numberCell, if_neg hp]
    have hnil : st.placedWords.filter (fun w => startsAt w x) = [] := by
      cases hfe : st.placedWords.filter (fun w => startsAt w x) with
      | nil => rfl
      | cons a l => rw [hfe] at hp; simp at hp
    have hall := List.filter_eq_nil_iff.mp hnil
    symm
    calc st.placedWords.map (fun w =>
          if startsAt w x then { w with number := some st.currentNumber } else w)
        = st.placedWords.map id := by
          apply List.map_congr_left
          intro w hw
          rw [if_neg (by simpa using hall w hw)]
          rfl
      _ = st.placedWords := List.map_id st.placedWords

theorem foldl_pws_exists_map :
    ∀ (cs : List (Int × Int)) (st : NumberState),
      ∃ f : Int × Int → Nat,
        (cs.foldl numberCell st).placedWords =
          st.placedWords.map (fun w =>
            if (w.row, w.col) ∈ cs then
              { w with number := some (f (w.row, w.col)) }
            else w) := by
  intro cs
  induction cs with
  | nil =>
    intro st
    refine ⟨fun _ => 0, ?_⟩
    symm
    calc st.placedWords.map (fun w =>
          if (w.row, w.col) ∈ ([] : List (Int × Int)) then
            { w with number := some 0 } else w)
        = st.placedWords.map id := by
          apply List.map_congr_left
          intro w _
          rw [if_neg (List.not_mem_nil _)]
          rfl
      _ = st.placedWords := List.map_id st.placedWords
  | cons x rest ih =>
    intro st
    obtain ⟨f', hf'⟩ := ih (numberCell st x)
    refine ⟨fun rc => if rc ∈ rest then f' rc else st.currentNumber, ?_⟩
    rw [List.foldl_cons, hf', numberCell_placedWords, List.map_map]
    apply List.map_congr_left
    intro w _
    simp only [Function.comp]
    by_cases hs : startsAt w x = true
    · have hx : (w.row, w.col) = x := (startsAt_iff w x).mp hs
      rw [if_pos hs]
      have hmem : (w.row, w.col) ∈ x :: rest := by
        rw [hx]
        exact List.mem_cons_self x rest
      rw [if_pos hmem]
      by_cases hr : (w.row, w.col) ∈ rest
      · rw [if_pos hr, if_pos hr]
      · rw [if_neg hr, if_neg hr]
    · have hx : (w.row, w.col) ≠ x := fun he => hs ((startsAt_iff w x).mpr he)
      rw [if_neg hs]
      by_cases hr : (w.row, w.col) ∈ rest
      · rw [if_pos hr, if_pos (List.mem_cons_of_mem x hr), if_pos hr]
      · rw [if_neg hr, if_neg (by
          intro hm
          rcases List.mem_cons.mp hm with he | hm'
          · exact hx he
          · exact hr hm')]

/-- A third demonstration placement: the one-letter word "C" at row 0,
column 1, oriented down. -/
def demoPlacedC : PlacedWord :=
  mkPlaced { id := 2, word := ['C'], clue := "demo" } 0 1 .down

/-- C6: in every derived board, clue numbers start at 1 — the row-major
first in-bounds origin cell is numbered exactly 1 — and strictly increase
in row-major order over distinct in-bounds origin cells, all placements
sharing one origin cell receive the same number, and the returned clue
list is sorted by number. -/
theorem calculateGrid_numbering (p : List PlacedWord) (rows cols : Nat) :
    (∀ e ∈ (calculateGrid p rows cols).clues, 1 ≤ e.number) ∧
    (∀ r1 c1 r2 c2 : Nat, r1 < rows → c1 < cols → r2 < rows → c2 < cols →
      isOriginCell p ((r1 : Int), (c1 : Int)) = true →
      isOriginCell p ((r2 : Int), (c2 : Int)) = true →
      (r1 < r2 ∨ (r1 = r2 ∧ c1 < c2)) →
      ∃ n1 n2 : Nat,
        (((calculateGrid p rows cols).grid) (r1 : Int) (c1 : Int)).clueNumber =
          some n1 ∧
        (((calculateGrid p rows cols).grid) (r2 : Int) (c2 : Int)).clueNumber =
          some n2 ∧
        1 ≤ n1 ∧ n1 < n2) ∧
    (∀ w1 ∈ (calculateGrid p rows cols).placedWords,
      ∀ w2 ∈ (calculateGrid p rows cols).placedWords,
      w1.row = w2.row → w1.col = w2.col →
      0 ≤ w1.row → w1.row < (rows : Int) → 0 ≤ w1.col → w1.col < (cols : Int) →
      w1.number = w2.number) ∧
    (calculateGrid p rows cols).clues.Sorted clueNumberLe ∧
    (∀ r1 c1 : Nat, r1 < rows → c1 < cols →
      isOriginCell p ((r1 : Int), (c1 : Int)) = true →
      (∀ r0 c0 : Nat, r0 < rows → c0 < cols →
        isOriginCell p ((r0 : Int), (c0 : Int)) = true →
        ¬(r0 < r1 ∨ (r0 = r1 ∧ c0 < c1))) →
      (((calculateGrid p rows cols).grid) (r1 : Int) (c1 : Int)).clueNumber =
        some 1) := by
  refine ⟨?_, ?_, ?_, ?_, ?_⟩
  · intro e he
    have hperm := List.perm_insertionSort clueNumberLe
      (((rowMajorCells rows cols).foldl numberCell
        { currentNumber := 1, clues := [], placedWords := p,
          grid := placeAllLetters rows cols p (createEmptyGrid rows cols) }).clues)
    have he' : e ∈ ((rowMajorCells rows cols).foldl numberCell
        { currentNumber := 1, clues := [], placedWords := p,
          grid := placeAllLetters rows cols p (createEmptyGrid rows cols) }).clues :=
      hperm.mem_iff.mp he
    exact foldl_clues_ge_one (rowMajorCells rows cols) _ (Nat.le_refl 1)
      (by intro e' he'; exact absurd he' (List.not_mem_nil e')) e he'
  · intro r1 c1 r2 c2 h1 h2 h3 h4 ho1 ho2 hlt
    obtain ⟨mid, hmid⟩ := cellsBefore_extend cols r1 c1 r2 c2 h2 hlt
    refine ⟨1 + countOrigins p (cellsBefore cols r1 c1),
      1 + countOrigins p (cellsBefore cols r2 c2), ?_, ?_, ?_, ?_⟩
    · rw [calculateGrid_clueNumber_char p rows cols r1 c1 h1 h2, if_pos ho1]
    · rw [calculateGrid_clueNumber_char p rows cols r2 c2 h3 h4, if_pos ho2]
    · omega
    · rw [hmid, countOrigins_append, countOrigins_cons, ho1]
      simp only [if_true]
      omega
  · intro w1 hw1 w2 hw2 hrr hcc hb1 hb2 hb3 hb4
    obtain ⟨f, hf⟩ := foldl_pws_exists_map (rowMajorCells rows cols)
      { currentNumber := 1, clues := [], placedWords := p,
        grid := placeAllLetters rows cols p (createEmptyGrid rows cols) }
    have hpw : (calculateGrid p rows cols).placedWords =
        p.map (fun w =>
          if (w.row, w.col) ∈ rowMajorCells rows cols then
            { w with number := some (f (w.row, w.col)) }
          else w) := hf
    rw [hpw] at hw1 hw2
    obtain ⟨w01, hw01, he1⟩ := List.mem_map.mp hw1
    obtain ⟨w02, hw02, he2⟩ := List.mem_map.mp hw2
    have hcoord1 : w1.row = w01.row ∧ w1.col = w01.col := by
      by_cases hm : (w01.row, w01.col) ∈ rowMajorCells rows cols
      · rw [if_pos hm] at he1
        rw [← he1]
        exact ⟨rfl, rfl⟩
      · rw [if_neg hm] at he1
        rw [← he1]
        exact ⟨rfl, rfl⟩
    have hcoord2 : w2.row = w02.row ∧ w2.col = w02.col := by
      by_cases hm : (w02.row, w02.col) ∈ rowMajorCells rows cols
      · rw [if_pos hm] at he2
        rw [← he2]
        exact ⟨rfl, rfl⟩
      · rw [if_neg hm] at he2
        rw [← he2]
        exact ⟨rfl, rfl⟩
    have hm1 : (w01.row, w01.col) ∈ rowMajorCells rows cols := by
      rw [mem_rowMajorCells]
      rw [← hcoord1.1, ← hcoord1.2]
      exact ⟨hb1, hb2, hb3, hb4⟩
    have hm2 : (w02.row, w02.col) ∈ rowMajorCells rows cols := by
      rw [mem_rowMajorCells]
      rw [← hcoord2.1, ← hcoord2.2]
      have : 0 ≤ w2.row ∧ w2.row < (rows : Int) ∧ 0 ≤ w2.col ∧
          w2.col < (cols : Int) := by
        rw [← hrr, ← hcc]
        exact ⟨hb1, hb2, hb3, hb4⟩
      exact ⟨this.1, this.2.1, this.2.2.1, this.2.2.2⟩
    rw [if_pos hm1] at he1
    rw [if_pos hm2] at he2
    have hsame : (w01.row, w01.col) = (w02.row, w02.col) := by
      rw [← hcoord1.1, ← hcoord1.2, ← hcoord2.1, ← hcoord2.2, hrr, hcc]
    rw [← he1, ← he2]
    show some (f (w01.row, w01.col)) = some (f (w02.row, w02.col))
    rw [hsame]
  · exact List.sorted_insertionSort clueNumberLe _
  · intro r1 c1 h1 h2 ho1 hmin
    rw [calculateGrid_clueNumber_char p rows cols r1 c1 h1 h2, if_pos ho1]
    have hnil : (cellsBefore cols r1 c1).filter (isOriginCell p) = [] := by
      apply List.filter_eq_nil_iff.mpr
      rintro ⟨a, b⟩ hx hox
      rcases (mem_cellsBefore_iff cols r1 c1 a b).mp hx with
        ⟨ha0, ha1, hb0, hb1⟩ | ⟨ha, hb0, hb1⟩
      · have hca : ((a.toNat : Nat) : Int) = a := Int.toNat_of_nonneg ha0
        have hcb : ((b.toNat : Nat) : Int) = b := Int.toNat_of_nonneg hb0
        refine hmin a.toNat b.toNat (by omega) (by omega) ?_ ?_
        · rw [hca, hcb]
          exact hox
        · left
          omega
      · have hca : ((a.toNat : Nat) : Int) = a := Int.toNat_of_nonneg (by omega)
        have hcb : ((b.toNat : Nat) : Int) = b := Int.toNat_of_nonneg hb0
        refine hmin a.toNat b.toNat (by omega) (by omega) ?_ ?_
        · rw [hca, hcb]
          exact hox
        · right
          exact ⟨by omega, by omega⟩
    have hzero : countOrigins p (cellsBefore cols r1 c1) = 0 := by
      simp [countOrigins, hnil]
    rw [hzero]

/-- C6 witness: the numbering guarantees applied to placements "A" at (0,0)
and "C" at (0,1) on a 2×2 board, including that the first origin cell is
numbered exactly 1. -/
theorem calculateGrid_numbering_witness :
    (∃ n1 n2 : Nat,
      (((calculateGrid [demoPlacedA, demoPlacedC] 2 2).grid)
        ((0 : Nat) : Int) ((0 : Nat) : Int)).clueNumber = some n1 ∧
      (((calculateGrid [demoPlacedA, demoPlacedC] 2 2).grid)
        ((0 : Nat) : Int) ((1 : Nat) : Int)).clueNumber = some n2 ∧
      1 ≤ n1 ∧ n1 < n2) ∧
    (((calculateGrid [demoPlacedA, demoPlacedC] 2 2).grid)
      ((0 : Nat) : Int) ((0 : Nat) : Int)).clueNumber = some 1 :=
  ⟨(calculateGrid_numbering [demoPlacedA, demoPlacedC] 2 2).2.1 0 0 0 1
    (by decide) (by decide) (by decide) (by decide) (by decide) (by decide)
    (by omega),
  (calculateGrid_numbering [demoPlacedA, demoPlacedC] 2 2).2.2.2.2 0 0
    (by decide) (by decide) (by decide)
    (by
      intro r0 c0 _ _ _ hlt
      rcases hlt with h | ⟨h, h'⟩ <;> omega)⟩

end CrosGen
